import Mathlib

/-!
Verification of the on-call schedule planner's constraint model
(`exploration/Exploration.ipynb`).

The notebook builds a CP-SAT model: boolean decision variables
`assignedNormalTimeSlots[(e,t)]` / `assignedEscalationTimeSlots[(e,t)]`,
hard constraints (employee availability, exactly-one coverage per slot,
no self-escalation, no immediate repeat for the normal role), auxiliary
integer variables for absolute values (`calcAbsMinus`), two max-equality
cost variables for target workloads, and a weighted overall objective.

We embed the emitted model as a list of constraints over named variables
together with a satisfaction semantics, mirroring each notebook cell.
-/

/-- Boolean decision variables of the model: `nrm e t` is
`assignedNormalTimeSlots[(e,t)]`, `esc e t` is
`assignedEscalationTimeSlots[(e,t)]`. -/
inductive BVar where
  | nrm (e t : Nat)
  | esc (e t : Nat)
deriving DecidableEq, Repr

/-- Integer variables of the model, tagged by the call site that creates
them.  Each `calcAbsMinus` call creates three variables (`j = 0`:
`m1IntVar`, `j = 1`: `m2IntVar`, `j = 2`: `absValueIntVar`); the call
sites are the rotation-cost loops (group index `i`, employee `e`) and the
target-workload comprehensions (employee `e`).  `ctwN` / `ctwE` are
`costTargetWorkload` / `costTargetWorkloadEscalation`. -/
inductive IVar where
  | rotN (i e j : Nat)
  | rotE (i e j : Nat)
  | tgtN (e j : Nat)
  | tgtE (e j : Nat)
  | ctwN
  | ctwE
deriving DecidableEq, Repr

/-- Constraints emitted by the notebook, in the shapes actually used:
`model.Add(sum(boolvars) == c)` (availability and coverage),
`model.AddImplication(a, b.Not())`, `model.Add(v == m1 - m2)` and
`model.Add(v == m2 - m1)` inside `calcAbsMinus` (where `m1` is always a
workload, i.e. a sum of boolean variables, and `m2` an integer
constant), and `model.AddMaxEquality(v, args)`. -/
inductive Cons where
  | eqSum (vs : List BVar) (c : Int)
  | impNot (a b : BVar)
  | eqIvarSumSub (v : IVar) (vs : List BVar) (c : Int)
  | eqIvarSubSum (v : IVar) (c : Int) (vs : List BVar)
  | maxEq (v : IVar) (args : List IVar)
deriving DecidableEq, Repr

/-- `btoi` from the notebook's model description: booleans as 0/1. -/
def btoi (b : Bool) : Int := if b then 1 else 0

/-- Value of a sum of boolean variables under a boolean valuation. -/
def sumB (vb : BVar → Bool) (vs : List BVar) : Int :=
  (vs.map (fun v => btoi (vb v))).sum

/-- Satisfaction of one constraint under valuations `vb` (booleans) and
`vi` (integers).  `maxEq` is ortools `AddMaxEquality`: the target equals
the maximum of the arguments. -/
def consSat (vb : BVar → Bool) (vi : IVar → Int) : Cons → Prop
  | .eqSum vs c => sumB vb vs = c
  | .impNot a b => vb a = true → vb b = false
  | .eqIvarSumSub v vs c => vi v = sumB vb vs - c
  | .eqIvarSubSum v c vs => vi v = c - sumB vb vs
  | .maxEq v args => vi v ∈ args.map vi ∧ ∀ x ∈ args.map vi, x ≤ vi v

instance (vb : BVar → Bool) (vi : IVar → Int) (c : Cons) :
    Decidable (consSat vb vi c) := by
  cases c <;> dsimp [consSat] <;> infer_instance

/-- The model: integer-variable declarations with their bounds
(`NewIntVar(lo, hi)`) and the emitted constraint list. -/
structure Model where
  decls : List (IVar × Int × Int)
  conss : List Cons

/-- Feasibility: every declared integer variable is within its declared
bounds and every emitted constraint holds. -/
def modelSat (m : Model) (vb : BVar → Bool) (vi : IVar → Int) : Prop :=
  (∀ d ∈ m.decls, d.2.1 ≤ vi d.1 ∧ vi d.1 ≤ d.2.2) ∧
  (∀ c ∈ m.conss, consSat vb vi c)

instance (m : Model) (vb : BVar → Bool) (vi : IVar → Int) :
    Decidable (modelSat m vb vi) := by
  unfold modelSat; infer_instance

/-- The input data of a scheduling run (the values set up in the
notebook's first code cell, as parameters).  Target workloads are total
maps (the notebook populates a dict entry for every pool member);
employee constraints map to `none` where the notebook stores `None`. -/
structure Input where
  amountTimeSlots : Nat
  timeSlotsWorkday : List Nat
  normalEmployees : List Nat
  escalationEmployees : List Nat
  targetWorkloadNormal : Nat → Int
  targetWorkloadEscalation : Nat → Int
  normalEmployeeConstraints : Nat → Nat → Option Bool
  escalationEmployeeConstraints : Nat → Nat → Option Bool

/-- `timeSlots = range(amountTimeSlots)`. -/
def timeSlots (inp : Input) : List Nat := List.range inp.amountTimeSlots

/-- `timeSlotsFree = [t for t in timeSlots if t not in timeSlotsWorkday]`. -/
def timeSlotsFree (inp : Input) : List Nat :=
  (timeSlots inp).filter (fun t => t ∉ inp.timeSlotsWorkday)

/-- Python list slicing into consecutive blocks:
`[l[i : i + k] for i in range(0, len(l), k)]`, i.e. one slice per
index `j*k` with `j < ceil(len(l) / k)`.
For `k = 0` the source (`range` with step 0) raises; no scheduling run
reaches that shape, and we return `[]`. -/
def chunks (k : Nat) (l : List Nat) : List (List Nat) :=
  if k = 0 then []
  else (List.range ((l.length + k - 1) / k)).map fun j => (l.drop (j * k)).take k

/-- Rotation groups for the normal role:
`rotations = [timeSlots[i: i + len(normalEmployees)] for i in range(0, len(timeSlots), len(normalEmployees))]`. -/
def rotationsN (inp : Input) : List (List Nat) :=
  chunks inp.normalEmployees.length (timeSlots inp)

/-- Rotation groups for the escalation role (`rotationsEscalation`). -/
def rotationsE (inp : Input) : List (List Nat) :=
  chunks inp.escalationEmployees.length (timeSlots inp)

/-- The `i`-th rotation group of the normal role. -/
def rotNGroup (inp : Input) (i : Nat) : List Nat := (rotationsN inp).getD i []

/-- The `i`-th rotation group of the escalation role. -/
def rotEGroup (inp : Input) (i : Nat) : List Nat := (rotationsE inp).getD i []

/-- Availability cell: for every employee and slot with a non-`None`
constraint, `model.Add(var == value)`; first the normal loop, then the
escalation loop. -/
def availabilityCons (inp : Input) : List Cons :=
  (inp.normalEmployees.flatMap fun e =>
    (timeSlots inp).filterMap fun t =>
      (inp.normalEmployeeConstraints e t).map fun b =>
        Cons.eqSum [BVar.nrm e t] (btoi b)) ++
  (inp.escalationEmployees.flatMap fun e =>
    (timeSlots inp).filterMap fun t =>
      (inp.escalationEmployeeConstraints e t).map fun b =>
        Cons.eqSum [BVar.esc e t] (btoi b))

/-- Coverage cell: per slot, `model.Add(sum(normal pool) == 1)` then
`model.Add(sum(escalation pool) == 1)`. -/
def coverageCons (inp : Input) : List Cons :=
  (timeSlots inp).flatMap fun t =>
    [Cons.eqSum (inp.normalEmployees.map fun e => BVar.nrm e t) 1,
     Cons.eqSum (inp.escalationEmployees.map fun e => BVar.esc e t) 1]

/-- No-self-escalation cell: the source iterates
`for t in range(amountTimeSlots-1)` (not over all slots) and over the
escalation employees that are also normal employees, adding
`AddImplication(normal, escalation.Not())`. -/
def selfEscalationCons (inp : Input) : List Cons :=
  (List.range (inp.amountTimeSlots - 1)).flatMap fun t =>
    (inp.escalationEmployees.filter (fun e => e ∈ inp.normalEmployees)).map
      fun e => Cons.impNot (BVar.nrm e t) (BVar.esc e t)

/-- No-immediate-repeat cell: for `t in range(amountTimeSlots-1)` and
every normal employee, `AddImplication(normal t, (normal t+1).Not())`. -/
def noImmediateRepeatCons (inp : Input) : List Cons :=
  (List.range (inp.amountTimeSlots - 1)).flatMap fun t =>
    inp.normalEmployees.map fun e =>
      Cons.impNot (BVar.nrm e t) (BVar.nrm e (t + 1))

/-- The constraints of one `calcAbsMinus(m1, m2)` call where `m1` is the
workload sum over `vs` and `m2` the constant `c`, with result triple
`(v0, v1, v2)`:  `v0 == m1 - m2`, `v1 == m2 - m1`,
`AddMaxEquality(v2, [v0, v1])`. -/
def calcAbsMinusCons (v0 v1 v2 : IVar) (vs : List BVar) (c : Int) : List Cons :=
  [Cons.eqIvarSumSub v0 vs c,
   Cons.eqIvarSubSum v1 c vs,
   Cons.maxEq v2 [v0, v1]]

/-- The declarations of one `calcAbsMinus` call: all three variables are
`NewIntVar(-amountTimeSlots, amountTimeSlots)`. -/
def calcAbsMinusDecls (n : Nat) (v0 v1 v2 : IVar) : List (IVar × Int × Int) :=
  [(v0, -(n : Int), (n : Int)), (v1, -(n : Int), (n : Int)),
   (v2, -(n : Int), (n : Int))]

/-- Normal-rotation cost cell: for each rotation group (outer loop) and
each normal employee (inner loop),
`calcAbsMinus(workload(assignedNormalTimeSlots, r, e), 1)`. -/
def costRotationsCons (inp : Input) : List Cons :=
  (List.range (rotationsN inp).length).flatMap fun i =>
    inp.normalEmployees.flatMap fun e =>
      calcAbsMinusCons (IVar.rotN i e 0) (IVar.rotN i e 1) (IVar.rotN i e 2)
        ((rotNGroup inp i).map fun t => BVar.nrm e t) 1

def costRotationsDecls (inp : Input) : List (IVar × Int × Int) :=
  (List.range (rotationsN inp).length).flatMap fun i =>
    inp.normalEmployees.flatMap fun e =>
      calcAbsMinusDecls inp.amountTimeSlots
        (IVar.rotN i e 0) (IVar.rotN i e 1) (IVar.rotN i e 2)

/-- Escalation-rotation cost cell. -/
def costRotationsEscalationCons (inp : Input) : List Cons :=
  (List.range (rotationsE inp).length).flatMap fun i =>
    inp.escalationEmployees.flatMap fun e =>
      calcAbsMinusCons (IVar.rotE i e 0) (IVar.rotE i e 1) (IVar.rotE i e 2)
        ((rotEGroup inp i).map fun t => BVar.esc e t) 1

def costRotationsEscalationDecls (inp : Input) : List (IVar × Int × Int) :=
  (List.range (rotationsE inp).length).flatMap fun i =>
    inp.escalationEmployees.flatMap fun e =>
      calcAbsMinusDecls inp.amountTimeSlots
        (IVar.rotE i e 0) (IVar.rotE i e 1) (IVar.rotE i e 2)

/-- Escalation target-workload cell: per escalation employee a
`calcAbsMinus(workload(assignedEscalationTimeSlots, timeSlotsFree, e), targetWorkloadEscalation[e])`,
then `AddMaxEquality(costTargetWorkloadEscalation, [...])`. -/
def costTargetWorkloadEscalationCons (inp : Input) : List Cons :=
  (inp.escalationEmployees.flatMap fun e =>
    calcAbsMinusCons (IVar.tgtE e 0) (IVar.tgtE e 1) (IVar.tgtE e 2)
      ((timeSlotsFree inp).map fun t => BVar.esc e t)
      (inp.targetWorkloadEscalation e)) ++
  [Cons.maxEq IVar.ctwE (inp.escalationEmployees.map fun e => IVar.tgtE e 2)]

/-- `costTargetWorkloadEscalation = model.NewIntVar(0, len(timeSlotsFree), ...)`
plus the `calcAbsMinus` declarations. -/
def costTargetWorkloadEscalationDecls (inp : Input) : List (IVar × Int × Int) :=
  (IVar.ctwE, 0, ((timeSlotsFree inp).length : Int)) ::
  (inp.escalationEmployees.flatMap fun e =>
    calcAbsMinusDecls inp.amountTimeSlots
      (IVar.tgtE e 0) (IVar.tgtE e 1) (IVar.tgtE e 2))

/-- Normal target-workload cell (`costTargetWorkload`). -/
def costTargetWorkloadCons (inp : Input) : List Cons :=
  (inp.normalEmployees.flatMap fun e =>
    calcAbsMinusCons (IVar.tgtN e 0) (IVar.tgtN e 1) (IVar.tgtN e 2)
      ((timeSlotsFree inp).map fun t => BVar.nrm e t)
      (inp.targetWorkloadNormal e)) ++
  [Cons.maxEq IVar.ctwN (inp.normalEmployees.map fun e => IVar.tgtN e 2)]

def costTargetWorkloadDecls (inp : Input) : List (IVar × Int × Int) :=
  (IVar.ctwN, 0, ((timeSlotsFree inp).length : Int)) ::
  (inp.normalEmployees.flatMap fun e =>
    calcAbsMinusDecls inp.amountTimeSlots
      (IVar.tgtN e 0) (IVar.tgtN e 1) (IVar.tgtN e 2))

/-- The hard-constraint part of the model, in cell order. -/
def hardCons (inp : Input) : List Cons :=
  availabilityCons inp ++ coverageCons inp ++ selfEscalationCons inp ++
    noImmediateRepeatCons inp

/-- The complete emitted model, cells in notebook order. -/
def buildModel (inp : Input) : Model where
  decls := costRotationsDecls inp ++ costRotationsEscalationDecls inp ++
    costTargetWorkloadEscalationDecls inp ++ costTargetWorkloadDecls inp
  conss := hardCons inp ++ costRotationsCons inp ++
    costRotationsEscalationCons inp ++ costTargetWorkloadEscalationCons inp ++
    costTargetWorkloadCons inp

/-- Satisfaction of the hard constraints alone (they mention no integer
variables, so the integer valuation is irrelevant; we fix it to 0). -/
def hardSat (inp : Input) (vb : BVar → Bool) : Prop :=
  ∀ c ∈ hardCons inp, consSat vb (fun _ => 0) c

instance (inp : Input) (vb : BVar → Bool) : Decidable (hardSat inp vb) := by
  unfold hardSat; infer_instance

/-- Value of the linear expression `costRotations` under a valuation:
the sum of the `calcAbsMinus` result variables over all
(group, employee) pairs. -/
def costRotationsVal (inp : Input) (vi : IVar → Int) : Int :=
  ((List.range (rotationsN inp).length).flatMap fun i =>
    inp.normalEmployees.map fun e => vi (IVar.rotN i e 2)).sum

/-- Value of `costRotationsEscalation`. -/
def costRotationsEscalationVal (inp : Input) (vi : IVar → Int) : Int :=
  ((List.range (rotationsE inp).length).flatMap fun i =>
    inp.escalationEmployees.map fun e => vi (IVar.rotE i e 2)).sum

/-- `costRotationsMax = len(rotations) * 2 * (len(normalEmployees) - 1)`
(Python integer arithmetic, hence `Int`). -/
def costRotationsMax (inp : Input) : Int :=
  ((rotationsN inp).length : Int) * 2 * ((inp.normalEmployees.length : Int) - 1)

/-- `costRotationsEscalationMax`. -/
def costRotationsEscalationMax (inp : Input) : Int :=
  ((rotationsE inp).length : Int) * 2 *
    ((inp.escalationEmployees.length : Int) - 1)

/-- `costTargetWorkloadEscalationMax = len(timeSlotsFree)`. -/
def costTargetWorkloadEscalationMax (inp : Input) : Int :=
  ((timeSlotsFree inp).length : Int)

/-- The objective composition of the final cell, as a function of the
three weights actually used and the four cost values:
`costOverall = costRotationsEscalation + costRotationsEscalationMax * costRotations + costRotationsEscalationMax * costRotationsMax * costTargetWorkloadEscalation + costRotationsEscalationMax * costRotationsMax * costTargetWorkloadEscalationMax * costTargetWorkload`. -/
def costOverall (m1 m2 m3 cRE cR cTWE cTW : Int) : Int :=
  cRE + m1 * cR + m1 * m2 * cTWE + m1 * m2 * m3 * cTW

/-- The objective value of a model valuation. -/
def costOverallVal (inp : Input) (vi : IVar → Int) : Int :=
  costOverall (costRotationsEscalationMax inp) (costRotationsMax inp)
    (costTargetWorkloadEscalationMax inp)
    (costRotationsEscalationVal inp vi) (costRotationsVal inp vi)
    (vi IVar.ctwE) (vi IVar.ctwN)

/-- Maximum of a list of integers, folded with neutral 0 (only applied
to nonempty lists of nonnegative values, where it is the true maximum). -/
def intMaxList (l : List Int) : Int := l.foldr max 0

/-- The canonical integer valuation determined by a boolean valuation:
each `calcAbsMinus` triple takes the values forced by its defining
equations, and each cost variable the forced maximum. -/
def canonVi (inp : Input) (vb : BVar → Bool) : IVar → Int
  | .rotN i e j =>
    match j with
    | 0 => sumB vb ((rotNGroup inp i).map fun t => BVar.nrm e t) - 1
    | 1 => 1 - sumB vb ((rotNGroup inp i).map fun t => BVar.nrm e t)
    | 2 => |sumB vb ((rotNGroup inp i).map fun t => BVar.nrm e t) - 1|
    | _ + 3 => 0
  | .rotE i e j =>
    match j with
    | 0 => sumB vb ((rotEGroup inp i).map fun t => BVar.esc e t) - 1
    | 1 => 1 - sumB vb ((rotEGroup inp i).map fun t => BVar.esc e t)
    | 2 => |sumB vb ((rotEGroup inp i).map fun t => BVar.esc e t) - 1|
    | _ + 3 => 0
  | .tgtN e j =>
    match j with
    | 0 => sumB vb ((timeSlotsFree inp).map fun t => BVar.nrm e t) -
        inp.targetWorkloadNormal e
    | 1 => inp.targetWorkloadNormal e -
        sumB vb ((timeSlotsFree inp).map fun t => BVar.nrm e t)
    | 2 => |sumB vb ((timeSlotsFree inp).map fun t => BVar.nrm e t) -
        inp.targetWorkloadNormal e|
    | _ + 3 => 0
  | .tgtE e j =>
    match j with
    | 0 => sumB vb ((timeSlotsFree inp).map fun t => BVar.esc e t) -
        inp.targetWorkloadEscalation e
    | 1 => inp.targetWorkloadEscalation e -
        sumB vb ((timeSlotsFree inp).map fun t => BVar.esc e t)
    | 2 => |sumB vb ((timeSlotsFree inp).map fun t => BVar.esc e t) -
        inp.targetWorkloadEscalation e|
    | _ + 3 => 0
  | .ctwN => intMaxList (inp.normalEmployees.map fun e =>
      |sumB vb ((timeSlotsFree inp).map fun t => BVar.nrm e t) -
        inp.targetWorkloadNormal e|)
  | .ctwE => intMaxList (inp.escalationEmployees.map fun e =>
      |sumB vb ((timeSlotsFree inp).map fun t => BVar.esc e t) -
        inp.targetWorkloadEscalation e|)

/-- Joint semantics of one `calcAbsMinus(m1, m2)` call on given values:
the three variable bounds from `NewIntVar(-amountTimeSlots, amountTimeSlots)`,
the two defining equalities, and the max-equality. -/
def CalcAbsSat (n : Nat) (m1 m2 v0 v1 v2 : Int) : Prop :=
  (-(n : Int) ≤ v0 ∧ v0 ≤ (n : Int)) ∧
  (-(n : Int) ≤ v1 ∧ v1 ≤ (n : Int)) ∧
  (-(n : Int) ≤ v2 ∧ v2 ≤ (n : Int)) ∧
  v0 = m1 - m2 ∧ v1 = m2 - m1 ∧
  (v2 ∈ [v0, v1] ∧ ∀ x ∈ [v0, v1], x ≤ v2)

instance (n : Nat) (m1 m2 v0 v1 v2 : Int) :
    Decidable (CalcAbsSat n m1 m2 v0 v1 v2) := by
  unfold CalcAbsSat; infer_instance

/-- The notebook's concrete run configuration (first code cell):
16 slots, working-hours slots {1,2,5,6,9,10,13,14}, normal pool
{1,2,3,4} with target workload 0, escalation pool {0,1,2} with target
workload 2, and the listed forced entries. -/
def notebookInput : Input where
  amountTimeSlots := 16
  timeSlotsWorkday := [1, 2, 5, 6, 9, 10, 13, 14]
  normalEmployees := [1, 2, 3, 4]
  escalationEmployees := [0, 1, 2]
  targetWorkloadNormal := fun _ => 0
  targetWorkloadEscalation := fun _ => 2
  normalEmployeeConstraints := fun e t =>
    if (e = 1 ∨ e = 2) ∧ t = 0 then some false else none
  escalationEmployeeConstraints := fun e t =>
    if e = 2 ∧ t = 0 then some true
    else if (e = 0 ∨ e = 1) ∧ (t = 1 ∨ t = 2) then some false
    else none

/-- A concrete schedule for `notebookInput`: normal responders alternate
between employees 3 and 4 up to slot 14, employee 1 takes slot 15;
escalation is employee 2 on slots 0-2, employee 0 on slots 3-14, and
employee 1 on slot 15. -/
def nbNormalAt (t : Nat) : Nat :=
  if t = 15 then 1 else if t % 2 = 0 then 3 else 4

def nbEscAt (t : Nat) : Nat :=
  if t = 15 then 1 else if t ≤ 2 then 2 else 0

def nbVb : BVar → Bool
  | .nrm e t => e == nbNormalAt t
  | .esc e t => e == nbEscAt t

/-! ### Shape of the hard constraints -/

/-- The hard-constraint cells only emit linear equalities over boolean
variables and implications; no integer variable occurs in them. -/
def hardShape (c : Cons) : Prop :=
  match c with
  | .eqSum _ _ => True
  | .impNot _ _ => True
  | _ => False

/-! ### Concrete run configurations used as test instances -/

/-- One slot, one employee per pool. -/
def singletonInput : Input where
  amountTimeSlots := 1
  timeSlotsWorkday := [0]
  normalEmployees := [7]
  escalationEmployees := [8]
  targetWorkloadNormal := fun _ => 0
  targetWorkloadEscalation := fun _ => 0
  normalEmployeeConstraints := fun _ _ => none
  escalationEmployeeConstraints := fun _ _ => none

def singletonVb : BVar → Bool
  | .nrm e _ => e == 7
  | .esc e _ => e == 8

/-- Two slots, two normal employees, a single escalation employee (who is
therefore on escalation duty in two consecutive slots). -/
def escRepeatInput : Input where
  amountTimeSlots := 2
  timeSlotsWorkday := []
  normalEmployees := [0, 1]
  escalationEmployees := [2]
  targetWorkloadNormal := fun _ => 0
  targetWorkloadEscalation := fun _ => 0
  normalEmployeeConstraints := fun _ _ => none
  escalationEmployeeConstraints := fun _ _ => none

def escRepeatVb : BVar → Bool
  | .nrm e t => e == t % 2
  | .esc e _ => e == 2

/-- Six all-working-hours slots, disjoint pools of three normal and two
escalation employees, all targets zero. -/
def lexInput : Input where
  amountTimeSlots := 6
  timeSlotsWorkday := [0, 1, 2, 3, 4, 5]
  normalEmployees := [0, 1, 2]
  escalationEmployees := [3, 4]
  targetWorkloadNormal := fun _ => 0
  targetWorkloadEscalation := fun _ => 0
  normalEmployeeConstraints := fun _ _ => none
  escalationEmployeeConstraints := fun _ _ => none

/-- Schedule a: escalation alternates 3,4,3,4,3,4 (escalation rotation
cost 0); normal alternates 0,1,0,1,0,1 leaving employee 2 idle (normal
rotation cost 4). -/
def lexVbA : BVar → Bool
  | .nrm e t => e == t % 2
  | .esc e t => e == (if t % 2 == 0 then 3 else 4)

/-- Schedule b: escalation goes 3,3,3,4,3,4 (escalation rotation cost 2);
normal rotates 0,1,2,0,1,2 (normal rotation cost 0). -/
def lexVbB : BVar → Bool
  | .nrm e t => e == t % 3
  | .esc e t => e == (if t ≤ 2 then 3 else if t % 2 == 1 then 4 else 3)

/-- One slot, an enormous normal target workload of 10. -/
def hugeTargetInput : Input where
  amountTimeSlots := 1
  timeSlotsWorkday := []
  normalEmployees := [0]
  escalationEmployees := [1]
  targetWorkloadNormal := fun _ => 10
  targetWorkloadEscalation := fun _ => 0
  normalEmployeeConstraints := fun _ _ => none
  escalationEmployeeConstraints := fun _ _ => none

def hugeTargetVb : BVar → Bool
  | .nrm e _ => e == 0
  | .esc e _ => e == 1

/-- Two slots and a single normal employee, everything free. -/
def singleNormalInput : Input where
  amountTimeSlots := 2
  timeSlotsWorkday := [0, 1]
  normalEmployees := [1]
  escalationEmployees := [0]
  targetWorkloadNormal := fun _ => 0
  targetWorkloadEscalation := fun _ => 0
  normalEmployeeConstraints := fun _ _ => none
  escalationEmployeeConstraints := fun _ _ => none

/-- One slot with two distinct normal employees both forced on. -/
def conflictInput : Input where
  amountTimeSlots := 1
  timeSlotsWorkday := [0]
  normalEmployees := [0, 1]
  escalationEmployees := [2]
  targetWorkloadNormal := fun _ => 0
  targetWorkloadEscalation := fun _ => 0
  normalEmployeeConstraints := fun e t =>
    if t = 0 ∧ (e = 0 ∨ e = 1) then some true else none
  escalationEmployeeConstraints := fun _ _ => none

/-- The claim's availability condition: for every slot and each role, at
least one pool member is not FORCED_OFF and at most one is FORCED_ON. -/
def availOK (inp : Input) : Prop :=
  ∀ t ∈ timeSlots inp,
    ((∃ e ∈ inp.normalEmployees,
        inp.normalEmployeeConstraints e t ≠ some false) ∧
      ∀ e1 ∈ inp.normalEmployees, ∀ e2 ∈ inp.normalEmployees,
        inp.normalEmployeeConstraints e1 t = some true →
        inp.normalEmployeeConstraints e2 t = some true → e1 = e2) ∧
    ((∃ e ∈ inp.escalationEmployees,
        inp.escalationEmployeeConstraints e t ≠ some false) ∧
      ∀ e1 ∈ inp.escalationEmployees, ∀ e2 ∈ inp.escalationEmployees,
        inp.escalationEmployeeConstraints e1 t = some true →
        inp.escalationEmployeeConstraints e2 t = some true → e1 = e2)

instance (inp : Input) : Decidable (availOK inp) := by
  unfold availOK; infer_instance

/-- The employee the constructed schedule puts on a slot: the forced-on
pool member when one exists, otherwise the first member not forced off. -/
def chooseAt (pool : List Nat) (cm : Nat → Nat → Option Bool) (t : Nat) : Nat :=
  match pool.find? (fun e => cm e t == some true) with
  | some e => e
  | none => (pool.find? (fun e => cm e t != some false)).getD 0

def chooseVb (inp : Input) : BVar → Bool
  | .nrm e t =>
    e == chooseAt inp.normalEmployees inp.normalEmployeeConstraints t
  | .esc e t =>
    e == chooseAt inp.escalationEmployees inp.escalationEmployeeConstraints t

/-! ### Arithmetic and list helper lemmas -/

theorem btoi_nonneg (b : Bool) : 0 ≤ btoi b := by cases b <;> simp [btoi]

theorem btoi_le_one (b : Bool) : btoi b ≤ 1 := by cases b <;> simp [btoi]

theorem sumB_nonneg (vb : BVar → Bool) (vs : List BVar) : 0 ≤ sumB vb vs := by
  induction vs with
  | nil => simp [sumB]
  | cons v vs ih =>
    simp only [sumB, List.map_cons, List.sum_cons] at ih ⊢
    have := btoi_nonneg (vb v)
    omega

theorem sumB_le_length (vb : BVar → Bool) (vs : List BVar) :
    sumB vb vs ≤ (vs.length : Int) := by
  induction vs with
  | nil => simp [sumB]
  | cons v vs ih =>
    simp only [sumB, List.map_cons, List.sum_cons, List.length_cons] at ih ⊢
    have := btoi_le_one (vb v)
    push_cast
    omega

theorem intMaxList_nonneg (l : List Int) : 0 ≤ intMaxList l := by
  induction l with
  | nil => simp [intMaxList]
  | cons a l ih =>
    simp only [intMaxList, List.foldr_cons] at ih ⊢
    exact le_trans ih (le_max_right _ _)

theorem intMaxList_mem (l : List Int) (hne : l ≠ [])
    (h0 : ∀ x ∈ l, 0 ≤ x) : intMaxList l ∈ l := by
  induction l with
  | nil => exact absurd rfl hne
  | cons a l ih =>
    cases l with
    | nil =>
      have ha : 0 ≤ a := h0 a (List.mem_cons_self a [])
      simp [intMaxList, max_eq_left ha]
    | cons b m =>
      have hmem : intMaxList (b :: m) ∈ b :: m :=
        ih (by simp) (fun x hx => h0 x (List.mem_cons_of_mem a hx))
      show max a (intMaxList (b :: m)) ∈ a :: b :: m
      rcases le_total a (intMaxList (b :: m)) with hle | hle
      · rw [max_eq_right hle]; exact List.mem_cons_of_mem a hmem
      · rw [max_eq_left hle]; exact List.mem_cons_self a (b :: m)

theorem intMaxList_ub (l : List Int) : ∀ x ∈ l, x ≤ intMaxList l := by
  induction l with
  | nil => simp
  | cons a l ih =>
    intro x hx
    show x ≤ max a (intMaxList l)
    rcases List.mem_cons.mp hx with rfl | hx
    · exact le_max_left _ _
    · exact le_trans (ih x hx) (le_max_right _ _)

theorem intMaxList_le (l : List Int) (B : Int) (hB : 0 ≤ B)
    (h : ∀ x ∈ l, x ≤ B) : intMaxList l ≤ B := by
  induction l with
  | nil => simpa [intMaxList] using hB
  | cons a l ih =>
    show max a (intMaxList l) ≤ B
    exact max_le (h a (List.mem_cons_self a l))
      (ih fun x hx => h x (List.mem_cons_of_mem a hx))

theorem sum_btoi_eq_zero (l : List Nat) (c : Nat) (hc : c ∉ l) :
    (l.map fun e => btoi (e == c)).sum = 0 := by
  induction l with
  | nil => simp
  | cons a l ih =>
    have hac : ¬a = c := fun h => hc (h ▸ List.mem_cons_self a l)
    have hcl : c ∉ l := fun h => hc (List.mem_cons_of_mem a h)
    simp only [List.map_cons, List.sum_cons, ih hcl]
    simp [btoi, hac]

theorem sum_btoi_eq_one (l : List Nat) (c : Nat) (hn : l.Nodup) (hc : c ∈ l) :
    (l.map fun e => btoi (e == c)).sum = 1 := by
  induction l with
  | nil => simp at hc
  | cons a l ih =>
    obtain ⟨hna, hnl⟩ := List.nodup_cons.mp hn
    rcases List.mem_cons.mp hc with rfl | hcl
    · rw [List.map_cons, List.sum_cons, sum_btoi_eq_zero l c hna]
      simp [btoi]
    · have hac : ¬a = c := fun h => hna (h ▸ hcl)
      simp only [List.map_cons, List.sum_cons, ih hnl hcl]
      simp [btoi, hac]

theorem sum_map_add (l : List Nat) (f g : Nat → Int) :
    (l.map fun x => f x + g x).sum = (l.map f).sum + (l.map g).sum := by
  induction l with
  | nil => simp
  | cons a l ih => simp only [List.map_cons, List.sum_cons, ih]; ring

theorem sum_map_comm (P T : List Nat) (f : Nat → Nat → Int) :
    (P.map fun e => (T.map fun t => f e t).sum).sum =
      (T.map fun t => (P.map fun e => f e t).sum).sum := by
  induction P with
  | nil => simp
  | cons a P ih =>
    simp only [List.map_cons, List.sum_cons, ih, sum_map_add]

theorem single_le_map_sum (l : List Nat) (f : Nat → Int)
    (h0 : ∀ e, 0 ≤ f e) (e : Nat) (he : e ∈ l) : f e ≤ (l.map f).sum := by
  refine List.single_le_sum ?_ _ (List.mem_map_of_mem f he)
  intro x hx
  obtain ⟨y, _, rfl⟩ := List.mem_map.mp hx
  exact h0 y

theorem two_mem_le_sum (l : List Nat) (f : Nat → Int) (h0 : ∀ e, 0 ≤ f e)
    (e1 e2 : Nat) (h1 : e1 ∈ l) (h2 : e2 ∈ l) (hne : e1 ≠ e2) :
    f e1 + f e2 ≤ (l.map f).sum := by
  induction l with
  | nil => simp at h1
  | cons a l ih =>
    simp only [List.map_cons, List.sum_cons]
    rcases List.mem_cons.mp h1 with rfl | h1m
    · have h2m : e2 ∈ l := by
        rcases List.mem_cons.mp h2 with h | h
        · exact absurd h (Ne.symm hne)
        · exact h
      have := single_le_map_sum l f h0 e2 h2m
      omega
    · rcases List.mem_cons.mp h2 with rfl | h2m
      · have := single_le_map_sum l f h0 e1 h1m
        omega
      · have := ih h1m h2m
        have := h0 a
        omega

/-! ### Rotation-group (chunk) lemmas -/

theorem lt_of_lt_ceil_div (a k j : Nat) (hk : k ≠ 0)
    (hj : j < (a + k - 1) / k) : j * k < a := by
  have h1 : (j + 1) * k ≤ ((a + k - 1) / k) * k :=
    Nat.mul_le_mul_right k hj
  have h2 : ((a + k - 1) / k) * k ≤ a + k - 1 := Nat.div_mul_le_self _ _
  have h3 : (j + 1) * k = j * k + k := by ring
  have hk1 : 1 ≤ k := Nat.one_le_iff_ne_zero.mpr hk
  omega

theorem chunks_mem_char (k : Nat) (l : List Nat) (r : List Nat)
    (hr : r ∈ chunks k l) :
    ∃ j, r = (l.drop (j * k)).take k ∧ j * k < l.length ∧ k ≠ 0 := by
  unfold chunks at hr
  by_cases hk : k = 0
  · simp [hk] at hr
  · simp only [hk, if_false, List.mem_map, List.mem_range] at hr
    obtain ⟨j, hj, rfl⟩ := hr
    exact ⟨j, rfl, lt_of_lt_ceil_div l.length k j hk hj, hk⟩

theorem chunks_spec (k : Nat) (l : List Nat) (r : List Nat)
    (hr : r ∈ chunks k l) :
    r ≠ [] ∧ r.length ≤ k ∧ r.length ≤ l.length ∧ ∀ x ∈ r, x ∈ l := by
  obtain ⟨j, rfl, hlt, hk⟩ := chunks_mem_char k l r hr
  refine ⟨?_, ?_, ?_, ?_⟩
  · have hlen : ((l.drop (j * k)).take k).length = min k (l.length - j * k) := by
      simp [List.length_take, List.length_drop]
    have : 0 < ((l.drop (j * k)).take k).length := by
      rw [hlen]
      have hk1 : 1 ≤ k := Nat.one_le_iff_ne_zero.mpr hk
      omega
    exact List.ne_nil_of_length_pos this
  · exact (l.drop (j * k)).length_take_le k
  · calc ((l.drop (j * k)).take k).length ≤ (l.drop (j * k)).length :=
          List.length_take_le' _ _
      _ ≤ l.length := by simp [List.length_drop]
  · intro x hx
    exact List.drop_subset (j * k) l (List.take_subset k (l.drop (j * k)) hx)

theorem rotNGroup_mem (inp : Input) (i : Nat)
    (hi : i < (rotationsN inp).length) : rotNGroup inp i ∈ rotationsN inp := by
  rw [rotNGroup, List.getD_eq_getElem (rotationsN inp) [] hi]
  exact List.getElem_mem hi

theorem rotEGroup_mem (inp : Input) (i : Nat)
    (hi : i < (rotationsE inp).length) : rotEGroup inp i ∈ rotationsE inp := by
  rw [rotEGroup, List.getD_eq_getElem (rotationsE inp) [] hi]
  exact List.getElem_mem hi

theorem timeSlotsFree_length_le (inp : Input) :
    (timeSlotsFree inp).length ≤ inp.amountTimeSlots := by
  calc (timeSlotsFree inp).length ≤ (timeSlots inp).length :=
        List.length_filter_le _ _
    _ = inp.amountTimeSlots := List.length_range _

/-! ### Semantics of one calcAbsMinus call -/

theorem calcAbs_value (n : Nat) (m1 m2 v0 v1 v2 : Int)
    (h : CalcAbsSat n m1 m2 v0 v1 v2) : v2 = |m1 - m2| := by
  obtain ⟨_, _, _, h0, h1, hmem, hub⟩ := h
  subst h0; subst h1
  have ha := hub (m1 - m2) (by simp)
  have hb := hub (m2 - m1) (by simp)
  simp only [List.mem_cons, List.mem_singleton, List.not_mem_nil, or_false] at hmem
  rcases abs_cases (m1 - m2) with ⟨he, _⟩ | ⟨he, _⟩ <;> rcases hmem with hv | hv <;>
    omega

theorem calcAbs_infeasible (n : Nat) (m1 m2 : Int)
    (h : (n : Int) < |m1 - m2|) : ¬∃ v0 v1 v2, CalcAbsSat n m1 m2 v0 v1 v2 := by
  rintro ⟨v0, v1, v2, ⟨hb0, hb1, _, h0, h1, _⟩⟩
  subst h0; subst h1
  rcases abs_cases (m1 - m2) with ⟨he, _⟩ | ⟨he, _⟩ <;> omega

theorem calcAbs_exists (n : Nat) (m1 m2 : Int)
    (h : |m1 - m2| ≤ (n : Int)) :
    CalcAbsSat n m1 m2 (m1 - m2) (m2 - m1) |m1 - m2| := by
  have ha := le_abs_self (m1 - m2)
  have hb := neg_abs_le (m1 - m2)
  have habs : |m2 - m1| = |m1 - m2| := abs_sub_comm m2 m1
  have hc := le_abs_self (m2 - m1)
  have h0 := abs_nonneg (m1 - m2)
  refine ⟨⟨by omega, by omega⟩, ⟨by omega, by omega⟩, ⟨by omega, by omega⟩,
    rfl, rfl, ?_, ?_⟩
  · rcases abs_cases (m1 - m2) with ⟨he, _⟩ | ⟨he, _⟩
    · rw [he]; exact List.mem_cons_self _ _
    · have hv : |m1 - m2| = m2 - m1 := by omega
      rw [hv]
      exact List.mem_cons_of_mem _ (List.mem_cons_self _ _)
  · intro x hx
    simp only [List.mem_cons, List.mem_singleton, List.not_mem_nil, or_false] at hx
    rcases hx with rfl | rfl
    · omega
    · omega

theorem hardCons_shape (inp : Input) : ∀ c ∈ hardCons inp, hardShape c := by
  intro c hc
  simp only [hardCons, List.mem_append] at hc
  rcases hc with ((hc | hc) | hc) | hc
  · simp only [availabilityCons, List.mem_append, List.mem_flatMap,
      List.mem_filterMap, Option.map_eq_some'] at hc
    rcases hc with ⟨e, _, t, _, b, _, heq⟩ | ⟨e, _, t, _, b, _, heq⟩ <;>
      subst heq <;> trivial
  · simp only [coverageCons, List.mem_flatMap, List.mem_cons,
      List.not_mem_nil, or_false] at hc
    obtain ⟨t, _, heq | heq⟩ := hc <;> subst heq <;> trivial
  · simp only [selfEscalationCons, List.mem_flatMap, List.mem_map] at hc
    obtain ⟨t, _, e, _, heq⟩ := hc
    subst heq; trivial
  · simp only [noImmediateRepeatCons, List.mem_flatMap, List.mem_map] at hc
    obtain ⟨t, _, e, _, heq⟩ := hc
    subst heq; trivial

theorem consSat_hardShape_congr (vb : BVar → Bool) (vi vi2 : IVar → Int)
    (c : Cons) (hs : hardShape c) :
    consSat vb vi c ↔ consSat vb vi2 c := by
  cases c with
  | eqSum vs k => exact Iff.rfl
  | impNot a b => exact Iff.rfl
  | eqIvarSumSub v vs k => simp [hardShape] at hs
  | eqIvarSubSum v k vs => simp [hardShape] at hs
  | maxEq v args => simp [hardShape] at hs

theorem hardSat_iff_all (inp : Input) (vb : BVar → Bool) (vi : IVar → Int) :
    (∀ c ∈ hardCons inp, consSat vb vi c) ↔ hardSat inp vb := by
  unfold hardSat
  constructor <;> intro h c hc
  · exact (consSat_hardShape_congr vb vi (fun _ => 0) c
      (hardCons_shape inp c hc)).mp (h c hc)
  · exact (consSat_hardShape_congr vb vi (fun _ => 0) c
      (hardCons_shape inp c hc)).mpr (h c hc)

theorem hard_mem_buildModel (inp : Input) (c : Cons) (hc : c ∈ hardCons inp) :
    c ∈ (buildModel inp).conss := by
  show c ∈ hardCons inp ++ costRotationsCons inp ++
    costRotationsEscalationCons inp ++ costTargetWorkloadEscalationCons inp ++
    costTargetWorkloadCons inp
  exact List.mem_append_left _ (List.mem_append_left _ (List.mem_append_left _
    (List.mem_append_left _ hc)))

/-! ### Membership of the calcAbsMinus call sites in the built model -/

theorem rotN_cons_mem (inp : Input) (i e : Nat)
    (hi : i < (rotationsN inp).length) (he : e ∈ inp.normalEmployees)
    (x : Cons)
    (hx : x ∈ calcAbsMinusCons (IVar.rotN i e 0) (IVar.rotN i e 1)
      (IVar.rotN i e 2) ((rotNGroup inp i).map fun t => BVar.nrm e t) 1) :
    x ∈ (buildModel inp).conss := by
  have hB : x ∈ costRotationsCons inp := by
    simp only [costRotationsCons, List.mem_flatMap, List.mem_range]
    exact ⟨i, hi, e, he, hx⟩
  show x ∈ hardCons inp ++ costRotationsCons inp ++
    costRotationsEscalationCons inp ++ costTargetWorkloadEscalationCons inp ++
    costTargetWorkloadCons inp
  exact List.mem_append_left _ (List.mem_append_left _ (List.mem_append_left _
    (List.mem_append_right _ hB)))

theorem rotN_decl_mem (inp : Input) (i e : Nat)
    (hi : i < (rotationsN inp).length) (he : e ∈ inp.normalEmployees)
    (x : IVar × Int × Int)
    (hx : x ∈ calcAbsMinusDecls inp.amountTimeSlots (IVar.rotN i e 0)
      (IVar.rotN i e 1) (IVar.rotN i e 2)) :
    x ∈ (buildModel inp).decls := by
  have hB : x ∈ costRotationsDecls inp := by
    simp only [costRotationsDecls, List.mem_flatMap, List.mem_range]
    exact ⟨i, hi, e, he, hx⟩
  show x ∈ costRotationsDecls inp ++ costRotationsEscalationDecls inp ++
    costTargetWorkloadEscalationDecls inp ++ costTargetWorkloadDecls inp
  exact List.mem_append_left _ (List.mem_append_left _
    (List.mem_append_left _ hB))

theorem rotE_cons_mem (inp : Input) (i e : Nat)
    (hi : i < (rotationsE inp).length) (he : e ∈ inp.escalationEmployees)
    (x : Cons)
    (hx : x ∈ calcAbsMinusCons (IVar.rotE i e 0) (IVar.rotE i e 1)
      (IVar.rotE i e 2) ((rotEGroup inp i).map fun t => BVar.esc e t) 1) :
    x ∈ (buildModel inp).conss := by
  have hB : x ∈ costRotationsEscalationCons inp := by
    simp only [costRotationsEscalationCons, List.mem_flatMap, List.mem_range]
    exact ⟨i, hi, e, he, hx⟩
  show x ∈ hardCons inp ++ costRotationsCons inp ++
    costRotationsEscalationCons inp ++ costTargetWorkloadEscalationCons inp ++
    costTargetWorkloadCons inp
  exact List.mem_append_left _ (List.mem_append_left _
    (List.mem_append_right _ hB))

theorem rotE_decl_mem (inp : Input) (i e : Nat)
    (hi : i < (rotationsE inp).length) (he : e ∈ inp.escalationEmployees)
    (x : IVar × Int × Int)
    (hx : x ∈ calcAbsMinusDecls inp.amountTimeSlots (IVar.rotE i e 0)
      (IVar.rotE i e 1) (IVar.rotE i e 2)) :
    x ∈ (buildModel inp).decls := by
  have hB : x ∈ costRotationsEscalationDecls inp := by
    simp only [costRotationsEscalationDecls, List.mem_flatMap, List.mem_range]
    exact ⟨i, hi, e, he, hx⟩
  show x ∈ costRotationsDecls inp ++ costRotationsEscalationDecls inp ++
    costTargetWorkloadEscalationDecls inp ++ costTargetWorkloadDecls inp
  exact List.mem_append_left _ (List.mem_append_left _
    (List.mem_append_right _ hB))

theorem tgtE_cons_mem (inp : Input) (e : Nat)
    (he : e ∈ inp.escalationEmployees) (x : Cons)
    (hx : x ∈ calcAbsMinusCons (IVar.tgtE e 0) (IVar.tgtE e 1) (IVar.tgtE e 2)
      ((timeSlotsFree inp).map fun t => BVar.esc e t)
      (inp.targetWorkloadEscalation e)) :
    x ∈ (buildModel inp).conss := by
  have hB : x ∈ costTargetWorkloadEscalationCons inp := by
    simp only [costTargetWorkloadEscalationCons, List.mem_append,
      List.mem_flatMap]
    exact Or.inl ⟨e, he, hx⟩
  show x ∈ hardCons inp ++ costRotationsCons inp ++
    costRotationsEscalationCons inp ++ costTargetWorkloadEscalationCons inp ++
    costTargetWorkloadCons inp
  exact List.mem_append_left _ (List.mem_append_right _ hB)

theorem tgtE_decl_mem (inp : Input) (e : Nat)
    (he : e ∈ inp.escalationEmployees) (x : IVar × Int × Int)
    (hx : x ∈ calcAbsMinusDecls inp.amountTimeSlots (IVar.tgtE e 0)
      (IVar.tgtE e 1) (IVar.tgtE e 2)) :
    x ∈ (buildModel inp).decls := by
  have hB : x ∈ costTargetWorkloadEscalationDecls inp := by
    simp only [costTargetWorkloadEscalationDecls, List.mem_cons,
      List.mem_flatMap]
    exact Or.inr ⟨e, he, hx⟩
  show x ∈ costRotationsDecls inp ++ costRotationsEscalationDecls inp ++
    costTargetWorkloadEscalationDecls inp ++ costTargetWorkloadDecls inp
  exact List.mem_append_left _ (List.mem_append_right _ hB)

theorem tgtN_cons_mem (inp : Input) (e : Nat) (he : e ∈ inp.normalEmployees)
    (x : Cons)
    (hx : x ∈ calcAbsMinusCons (IVar.tgtN e 0) (IVar.tgtN e 1) (IVar.tgtN e 2)
      ((timeSlotsFree inp).map fun t => BVar.nrm e t)
      (inp.targetWorkloadNormal e)) :
    x ∈ (buildModel inp).conss := by
  have hB : x ∈ costTargetWorkloadCons inp := by
    simp only [costTargetWorkloadCons, List.mem_append, List.mem_flatMap]
    exact Or.inl ⟨e, he, hx⟩
  show x ∈ hardCons inp ++ costRotationsCons inp ++
    costRotationsEscalationCons inp ++ costTargetWorkloadEscalationCons inp ++
    costTargetWorkloadCons inp
  exact List.mem_append_right _ hB

theorem tgtN_decl_mem (inp : Input) (e : Nat) (he : e ∈ inp.normalEmployees)
    (x : IVar × Int × Int)
    (hx : x ∈ calcAbsMinusDecls inp.amountTimeSlots (IVar.tgtN e 0)
      (IVar.tgtN e 1) (IVar.tgtN e 2)) :
    x ∈ (buildModel inp).decls := by
  have hB : x ∈ costTargetWorkloadDecls inp := by
    simp only [costTargetWorkloadDecls, List.mem_cons, List.mem_flatMap]
    exact Or.inr ⟨e, he, hx⟩
  show x ∈ costRotationsDecls inp ++ costRotationsEscalationDecls inp ++
    costTargetWorkloadEscalationDecls inp ++ costTargetWorkloadDecls inp
  exact List.mem_append_right _ hB

theorem ctwN_decl_mem (inp : Input) :
    (IVar.ctwN, (0 : Int), ((timeSlotsFree inp).length : Int)) ∈
      (buildModel inp).decls := by
  have hB : (IVar.ctwN, (0 : Int), ((timeSlotsFree inp).length : Int)) ∈
      costTargetWorkloadDecls inp := List.mem_cons_self _ _
  show _ ∈ costRotationsDecls inp ++ costRotationsEscalationDecls inp ++
    costTargetWorkloadEscalationDecls inp ++ costTargetWorkloadDecls inp
  exact List.mem_append_right _ hB

theorem ctwE_decl_mem (inp : Input) :
    (IVar.ctwE, (0 : Int), ((timeSlotsFree inp).length : Int)) ∈
      (buildModel inp).decls := by
  have hB : (IVar.ctwE, (0 : Int), ((timeSlotsFree inp).length : Int)) ∈
      costTargetWorkloadEscalationDecls inp := List.mem_cons_self _ _
  show _ ∈ costRotationsDecls inp ++ costRotationsEscalationDecls inp ++
    costTargetWorkloadEscalationDecls inp ++ costTargetWorkloadDecls inp
  exact List.mem_append_left _ (List.mem_append_right _ hB)

theorem ctwN_maxEq_mem (inp : Input) :
    Cons.maxEq IVar.ctwN (inp.normalEmployees.map fun e => IVar.tgtN e 2) ∈
      (buildModel inp).conss := by
  have hB : Cons.maxEq IVar.ctwN
      (inp.normalEmployees.map fun e => IVar.tgtN e 2) ∈
      costTargetWorkloadCons inp := by
    simp [costTargetWorkloadCons]
  show _ ∈ hardCons inp ++ costRotationsCons inp ++
    costRotationsEscalationCons inp ++ costTargetWorkloadEscalationCons inp ++
    costTargetWorkloadCons inp
  exact List.mem_append_right _ hB

theorem ctwE_maxEq_mem (inp : Input) :
    Cons.maxEq IVar.ctwE (inp.escalationEmployees.map fun e => IVar.tgtE e 2) ∈
      (buildModel inp).conss := by
  have hB : Cons.maxEq IVar.ctwE
      (inp.escalationEmployees.map fun e => IVar.tgtE e 2) ∈
      costTargetWorkloadEscalationCons inp := by
    simp [costTargetWorkloadEscalationCons]
  show _ ∈ hardCons inp ++ costRotationsCons inp ++
    costRotationsEscalationCons inp ++ costTargetWorkloadEscalationCons inp ++
    costTargetWorkloadCons inp
  exact List.mem_append_left _ (List.mem_append_right _ hB)

/-! ### From model satisfaction to calcAbsMinus semantics -/

theorem rotN_abs_sat (inp : Input) (vb : BVar → Bool) (vi : IVar → Int)
    (h : modelSat (buildModel inp) vb vi) (i e : Nat)
    (hi : i < (rotationsN inp).length) (he : e ∈ inp.normalEmployees) :
    CalcAbsSat inp.amountTimeSlots
      (sumB vb ((rotNGroup inp i).map fun t => BVar.nrm e t)) 1
      (vi (IVar.rotN i e 0)) (vi (IVar.rotN i e 1)) (vi (IVar.rotN i e 2)) := by
  obtain ⟨hd, hc⟩ := h
  have hb0 := hd _ (rotN_decl_mem inp i e hi he
    (IVar.rotN i e 0, -(inp.amountTimeSlots : Int), (inp.amountTimeSlots : Int))
    (by simp [calcAbsMinusDecls]))
  have hb1 := hd _ (rotN_decl_mem inp i e hi he
    (IVar.rotN i e 1, -(inp.amountTimeSlots : Int), (inp.amountTimeSlots : Int))
    (by simp [calcAbsMinusDecls]))
  have hb2 := hd _ (rotN_decl_mem inp i e hi he
    (IVar.rotN i e 2, -(inp.amountTimeSlots : Int), (inp.amountTimeSlots : Int))
    (by simp [calcAbsMinusDecls]))
  have hs0 := hc _ (rotN_cons_mem inp i e hi he
    (Cons.eqIvarSumSub (IVar.rotN i e 0)
      ((rotNGroup inp i).map fun t => BVar.nrm e t) 1)
    (by simp [calcAbsMinusCons]))
  have hs1 := hc _ (rotN_cons_mem inp i e hi he
    (Cons.eqIvarSubSum (IVar.rotN i e 1) 1
      ((rotNGroup inp i).map fun t => BVar.nrm e t))
    (by simp [calcAbsMinusCons]))
  have hs2 := hc _ (rotN_cons_mem inp i e hi he
    (Cons.maxEq (IVar.rotN i e 2) [IVar.rotN i e 0, IVar.rotN i e 1])
    (by simp [calcAbsMinusCons]))
  exact ⟨hb0, hb1, hb2, hs0, hs1, hs2⟩

theorem rotE_abs_sat (inp : Input) (vb : BVar → Bool) (vi : IVar → Int)
    (h : modelSat (buildModel inp) vb vi) (i e : Nat)
    (hi : i < (rotationsE inp).length) (he : e ∈ inp.escalationEmployees) :
    CalcAbsSat inp.amountTimeSlots
      (sumB vb ((rotEGroup inp i).map fun t => BVar.esc e t)) 1
      (vi (IVar.rotE i e 0)) (vi (IVar.rotE i e 1)) (vi (IVar.rotE i e 2)) := by
  obtain ⟨hd, hc⟩ := h
  have hb0 := hd _ (rotE_decl_mem inp i e hi he
    (IVar.rotE i e 0, -(inp.amountTimeSlots : Int), (inp.amountTimeSlots : Int))
    (by simp [calcAbsMinusDecls]))
  have hb1 := hd _ (rotE_decl_mem inp i e hi he
    (IVar.rotE i e 1, -(inp.amountTimeSlots : Int), (inp.amountTimeSlots : Int))
    (by simp [calcAbsMinusDecls]))
  have hb2 := hd _ (rotE_decl_mem inp i e hi he
    (IVar.rotE i e 2, -(inp.amountTimeSlots : Int), (inp.amountTimeSlots : Int))
    (by simp [calcAbsMinusDecls]))
  have hs0 := hc _ (rotE_cons_mem inp i e hi he
    (Cons.eqIvarSumSub (IVar.rotE i e 0)
      ((rotEGroup inp i).map fun t => BVar.esc e t) 1)
    (by simp [calcAbsMinusCons]))
  have hs1 := hc _ (rotE_cons_mem inp i e hi he
    (Cons.eqIvarSubSum (IVar.rotE i e 1) 1
      ((rotEGroup inp i).map fun t => BVar.esc e t))
    (by simp [calcAbsMinusCons]))
  have hs2 := hc _ (rotE_cons_mem inp i e hi he
    (Cons.maxEq (IVar.rotE i e 2) [IVar.rotE i e 0, IVar.rotE i e 1])
    (by simp [calcAbsMinusCons]))
  exact ⟨hb0, hb1, hb2, hs0, hs1, hs2⟩

theorem tgtN_abs_sat (inp : Input) (vb : BVar → Bool) (vi : IVar → Int)
    (h : modelSat (buildModel inp) vb vi) (e : Nat)
    (he : e ∈ inp.normalEmployees) :
    CalcAbsSat inp.amountTimeSlots
      (sumB vb ((timeSlotsFree inp).map fun t => BVar.nrm e t))
      (inp.targetWorkloadNormal e)
      (vi (IVar.tgtN e 0)) (vi (IVar.tgtN e 1)) (vi (IVar.tgtN e 2)) := by
  obtain ⟨hd, hc⟩ := h
  have hb0 := hd _ (tgtN_decl_mem inp e he
    (IVar.tgtN e 0, -(inp.amountTimeSlots : Int), (inp.amountTimeSlots : Int))
    (by simp [calcAbsMinusDecls]))
  have hb1 := hd _ (tgtN_decl_mem inp e he
    (IVar.tgtN e 1, -(inp.amountTimeSlots : Int), (inp.amountTimeSlots : Int))
    (by simp [calcAbsMinusDecls]))
  have hb2 := hd _ (tgtN_decl_mem inp e he
    (IVar.tgtN e 2, -(inp.amountTimeSlots : Int), (inp.amountTimeSlots : Int))
    (by simp [calcAbsMinusDecls]))
  have hs0 := hc _ (tgtN_cons_mem inp e he
    (Cons.eqIvarSumSub (IVar.tgtN e 0)
      ((timeSlotsFree inp).map fun t => BVar.nrm e t)
      (inp.targetWorkloadNormal e))
    (by simp [calcAbsMinusCons]))
  have hs1 := hc _ (tgtN_cons_mem inp e he
    (Cons.eqIvarSubSum (IVar.tgtN e 1) (inp.targetWorkloadNormal e)
      ((timeSlotsFree inp).map fun t => BVar.nrm e t))
    (by simp [calcAbsMinusCons]))
  have hs2 := hc _ (tgtN_cons_mem inp e he
    (Cons.maxEq (IVar.tgtN e 2) [IVar.tgtN e 0, IVar.tgtN e 1])
    (by simp [calcAbsMinusCons]))
  exact ⟨hb0, hb1, hb2, hs0, hs1, hs2⟩

theorem tgtE_abs_sat (inp : Input) (vb : BVar → Bool) (vi : IVar → Int)
    (h : modelSat (buildModel inp) vb vi) (e : Nat)
    (he : e ∈ inp.escalationEmployees) :
    CalcAbsSat inp.amountTimeSlots
      (sumB vb ((timeSlotsFree inp).map fun t => BVar.esc e t))
      (inp.targetWorkloadEscalation e)
      (vi (IVar.tgtE e 0)) (vi (IVar.tgtE e 1)) (vi (IVar.tgtE e 2)) := by
  obtain ⟨hd, hc⟩ := h
  have hb0 := hd _ (tgtE_decl_mem inp e he
    (IVar.tgtE e 0, -(inp.amountTimeSlots : Int), (inp.amountTimeSlots : Int))
    (by simp [calcAbsMinusDecls]))
  have hb1 := hd _ (tgtE_decl_mem inp e he
    (IVar.tgtE e 1, -(inp.amountTimeSlots : Int), (inp.amountTimeSlots : Int))
    (by simp [calcAbsMinusDecls]))
  have hb2 := hd _ (tgtE_decl_mem inp e he
    (IVar.tgtE e 2, -(inp.amountTimeSlots : Int), (inp.amountTimeSlots : Int))
    (by simp [calcAbsMinusDecls]))
  have hs0 := hc _ (tgtE_cons_mem inp e he
    (Cons.eqIvarSumSub (IVar.tgtE e 0)
      ((timeSlotsFree inp).map fun t => BVar.esc e t)
      (inp.targetWorkloadEscalation e))
    (by simp [calcAbsMinusCons]))
  have hs1 := hc _ (tgtE_cons_mem inp e he
    (Cons.eqIvarSubSum (IVar.tgtE e 1) (inp.targetWorkloadEscalation e)
      ((timeSlotsFree inp).map fun t => BVar.esc e t))
    (by simp [calcAbsMinusCons]))
  have hs2 := hc _ (tgtE_cons_mem inp e he
    (Cons.maxEq (IVar.tgtE e 2) [IVar.tgtE e 0, IVar.tgtE e 1])
    (by simp [calcAbsMinusCons]))
  exact ⟨hb0, hb1, hb2, hs0, hs1, hs2⟩

/-! ### Coverage constraints and per-group workload sums -/

theorem coverageN_mem (inp : Input) (t : Nat) (ht : t ∈ timeSlots inp) :
    Cons.eqSum (inp.normalEmployees.map fun e => BVar.nrm e t) 1 ∈
      hardCons inp := by
  have hB : Cons.eqSum (inp.normalEmployees.map fun e => BVar.nrm e t) 1 ∈
      coverageCons inp := by
    simp only [coverageCons, List.mem_flatMap]
    exact ⟨t, ht, by simp⟩
  show _ ∈ availabilityCons inp ++ coverageCons inp ++ selfEscalationCons inp ++
    noImmediateRepeatCons inp
  exact List.mem_append_left _ (List.mem_append_left _
    (List.mem_append_right _ hB))

theorem coverageE_mem (inp : Input) (t : Nat) (ht : t ∈ timeSlots inp) :
    Cons.eqSum (inp.escalationEmployees.map fun e => BVar.esc e t) 1 ∈
      hardCons inp := by
  have hB : Cons.eqSum (inp.escalationEmployees.map fun e => BVar.esc e t) 1 ∈
      coverageCons inp := by
    simp only [coverageCons, List.mem_flatMap]
    exact ⟨t, ht, by simp⟩
  show _ ∈ availabilityCons inp ++ coverageCons inp ++ selfEscalationCons inp ++
    noImmediateRepeatCons inp
  exact List.mem_append_left _ (List.mem_append_left _
    (List.mem_append_right _ hB))

theorem noRepeat_mem (inp : Input) (t e : Nat)
    (ht : t < inp.amountTimeSlots - 1) (he : e ∈ inp.normalEmployees) :
    Cons.impNot (BVar.nrm e t) (BVar.nrm e (t + 1)) ∈ hardCons inp := by
  have hB : Cons.impNot (BVar.nrm e t) (BVar.nrm e (t + 1)) ∈
      noImmediateRepeatCons inp := by
    simp only [noImmediateRepeatCons, List.mem_flatMap, List.mem_range]
    exact ⟨t, ht, by simp only [List.mem_map]; exact ⟨e, he, rfl⟩⟩
  show _ ∈ availabilityCons inp ++ coverageCons inp ++ selfEscalationCons inp ++
    noImmediateRepeatCons inp
  exact List.mem_append_right _ hB

theorem availN_mem (inp : Input) (e t : Nat) (he : e ∈ inp.normalEmployees)
    (ht : t ∈ timeSlots inp) (b : Bool)
    (hb : inp.normalEmployeeConstraints e t = some b) :
    Cons.eqSum [BVar.nrm e t] (btoi b) ∈ hardCons inp := by
  have hB : Cons.eqSum [BVar.nrm e t] (btoi b) ∈
      (inp.normalEmployees.flatMap fun e2 =>
        (timeSlots inp).filterMap fun t2 =>
          (inp.normalEmployeeConstraints e2 t2).map fun b2 =>
            Cons.eqSum [BVar.nrm e2 t2] (btoi b2)) := by
    simp only [List.mem_flatMap, List.mem_filterMap]
    exact ⟨e, he, t, ht, by rw [hb]; rfl⟩
  show _ ∈ availabilityCons inp ++ coverageCons inp ++ selfEscalationCons inp ++
    noImmediateRepeatCons inp
  exact List.mem_append_left _ (List.mem_append_left _ (List.mem_append_left _
    (List.mem_append_left _ hB)))

theorem availE_mem (inp : Input) (e t : Nat) (he : e ∈ inp.escalationEmployees)
    (ht : t ∈ timeSlots inp) (b : Bool)
    (hb : inp.escalationEmployeeConstraints e t = some b) :
    Cons.eqSum [BVar.esc e t] (btoi b) ∈ hardCons inp := by
  have hB : Cons.eqSum [BVar.esc e t] (btoi b) ∈
      (inp.escalationEmployees.flatMap fun e2 =>
        (timeSlots inp).filterMap fun t2 =>
          (inp.escalationEmployeeConstraints e2 t2).map fun b2 =>
            Cons.eqSum [BVar.esc e2 t2] (btoi b2)) := by
    simp only [List.mem_flatMap, List.mem_filterMap]
    exact ⟨e, he, t, ht, by rw [hb]; rfl⟩
  show _ ∈ availabilityCons inp ++ coverageCons inp ++ selfEscalationCons inp ++
    noImmediateRepeatCons inp
  exact List.mem_append_left _ (List.mem_append_left _ (List.mem_append_left _
    (List.mem_append_right _ hB)))

theorem sumB_map (vb : BVar → Bool) (f : Nat → BVar) (r : List Nat) :
    sumB vb (r.map f) = (r.map fun t => btoi (vb (f t))).sum := by
  simp only [sumB, List.map_map]
  rfl

theorem sum_map_one (r : List Nat) :
    (r.map fun _ => (1 : Int)).sum = (r.length : Int) := by
  induction r with
  | nil => simp
  | cons a r ih =>
    simp only [List.map_cons, List.sum_cons, List.length_cons, ih]
    omega

theorem coverage_group_sum_normal (inp : Input) (vb : BVar → Bool)
    (hcov : ∀ t ∈ timeSlots inp,
      sumB vb (inp.normalEmployees.map fun e => BVar.nrm e t) = 1)
    (r : List Nat) (hr : ∀ t ∈ r, t ∈ timeSlots inp) :
    (inp.normalEmployees.map fun e =>
      sumB vb (r.map fun t => BVar.nrm e t)).sum = (r.length : Int) := by
  have hswap := sum_map_comm inp.normalEmployees r
    (fun e t => btoi (vb (BVar.nrm e t)))
  calc (inp.normalEmployees.map fun e =>
          sumB vb (r.map fun t => BVar.nrm e t)).sum
      = (inp.normalEmployees.map fun e =>
          (r.map fun t => btoi (vb (BVar.nrm e t))).sum).sum := by
        congr 1
        exact List.map_congr_left fun e _ => sumB_map vb (fun t => BVar.nrm e t) r
    _ = (r.map fun t =>
          (inp.normalEmployees.map fun e => btoi (vb (BVar.nrm e t))).sum).sum :=
        hswap
    _ = (r.map fun _ => (1 : Int)).sum := by
        congr 1
        refine List.map_congr_left fun t ht => ?_
        have := hcov t (hr t ht)
        simpa [sumB_map] using this
    _ = (r.length : Int) := sum_map_one r

theorem coverage_group_sum_escalation (inp : Input) (vb : BVar → Bool)
    (hcov : ∀ t ∈ timeSlots inp,
      sumB vb (inp.escalationEmployees.map fun e => BVar.esc e t) = 1)
    (r : List Nat) (hr : ∀ t ∈ r, t ∈ timeSlots inp) :
    (inp.escalationEmployees.map fun e =>
      sumB vb (r.map fun t => BVar.esc e t)).sum = (r.length : Int) := by
  have hswap := sum_map_comm inp.escalationEmployees r
    (fun e t => btoi (vb (BVar.esc e t)))
  calc (inp.escalationEmployees.map fun e =>
          sumB vb (r.map fun t => BVar.esc e t)).sum
      = (inp.escalationEmployees.map fun e =>
          (r.map fun t => btoi (vb (BVar.esc e t))).sum).sum := by
        congr 1
        exact List.map_congr_left fun e _ => sumB_map vb (fun t => BVar.esc e t) r
    _ = (r.map fun t =>
          (inp.escalationEmployees.map fun e => btoi (vb (BVar.esc e t))).sum).sum :=
        hswap
    _ = (r.map fun _ => (1 : Int)).sum := by
        congr 1
        refine List.map_congr_left fun t ht => ?_
        have := hcov t (hr t ht)
        simpa [sumB_map] using this
    _ = (r.length : Int) := sum_map_one r

/-! ### The per-group rotation-cost bound -/

theorem abs_sub_one_identity (a : Int) (ha : 0 ≤ a) :
    |a - 1| = a + 1 - 2 * min a 1 := by
  rcases le_total a 1 with h | h
  · rw [min_eq_left h, abs_of_nonpos (by omega)]
    ring
  · rw [min_eq_right h, abs_of_nonneg (by omega)]
    ring

theorem sum_abs_identity (l : List Int) (h0 : ∀ x ∈ l, 0 ≤ x) :
    (l.map fun x => |x - 1|).sum =
      l.sum + (l.length : Int) - 2 * (l.map fun x => min x 1).sum := by
  induction l with
  | nil => simp
  | cons a t ih =>
    have ha : 0 ≤ a := h0 a (List.mem_cons_self a t)
    have iht := ih fun x hx => h0 x (List.mem_cons_of_mem a hx)
    simp only [List.map_cons, List.sum_cons, List.length_cons,
      abs_sub_one_identity a ha, iht]
    push_cast
    ring

theorem sum_min_one_ge (l : List Int) (h0 : ∀ x ∈ l, 0 ≤ x)
    (hs : 1 ≤ l.sum) : 1 ≤ (l.map fun x => min x 1).sum := by
  induction l with
  | nil => simp at hs
  | cons a t ih =>
    have ha : 0 ≤ a := h0 a (List.mem_cons_self a t)
    have h0t : ∀ x ∈ t, 0 ≤ x := fun x hx => h0 x (List.mem_cons_of_mem a hx)
    simp only [List.map_cons, List.sum_cons] at hs ⊢
    rcases le_or_lt 1 a with h | h
    · have hmin : min a 1 = 1 := min_eq_right h
      have hnn : 0 ≤ (t.map fun x => min x 1).sum := by
        apply List.sum_nonneg
        intro x hx
        obtain ⟨y, hy, rfl⟩ := List.mem_map.mp hx
        have := h0t y hy
        omega
      omega
    · have ha0 : a = 0 := by omega
      have hmin : min a 1 = 0 := by rw [ha0]; simp
      have := ih h0t (by omega)
      omega

theorem sum_abs_sub_one_le (l : List Int) (h0 : ∀ x ∈ l, 0 ≤ x)
    (hs1 : 1 ≤ l.sum) (hsn : l.sum ≤ (l.length : Int)) :
    (l.map fun x => |x - 1|).sum ≤ 2 * ((l.length : Int) - 1) := by
  have hid := sum_abs_identity l h0
  have hmin := sum_min_one_ge l h0 hs1
  omega

theorem sum_le_length_mul (l : List Int) (B : Int) (h : ∀ x ∈ l, x ≤ B) :
    l.sum ≤ (l.length : Int) * B := by
  induction l with
  | nil => simp
  | cons a t ih =>
    have h1 : a ≤ B := h a (List.mem_cons_self a t)
    have h2 : t.sum ≤ (t.length : Int) * B :=
      ih fun x hx => h x (List.mem_cons_of_mem a hx)
    simp only [List.sum_cons, List.length_cons]
    have h3 : ((t.length + 1 : Nat) : Int) * B = (t.length : Int) * B + B := by
      push_cast
      ring
    omega

theorem sum_flatMap_int (l : List Nat) (f : Nat → List Int) :
    (l.flatMap f).sum = (l.map fun a => (f a).sum).sum := by
  induction l with
  | nil => simp
  | cons a t ih => simp [List.flatMap_cons, List.sum_append, ih]

theorem costRotationsVal_le (inp : Input) (vb : BVar → Bool) (vi : IVar → Int)
    (h : modelSat (buildModel inp) vb vi) :
    costRotationsVal inp vi ≤ costRotationsMax inp := by
  have hcov : ∀ t ∈ timeSlots inp,
      sumB vb (inp.normalEmployees.map fun e => BVar.nrm e t) = 1 := by
    intro t ht
    exact h.2 _ (hard_mem_buildModel inp _ (coverageN_mem inp t ht))
  rw [costRotationsVal, sum_flatMap_int]
  have hinner : ∀ i ∈ List.range (rotationsN inp).length,
      (inp.normalEmployees.map fun e => vi (IVar.rotN i e 2)).sum ≤
        2 * ((inp.normalEmployees.length : Int) - 1) := by
    intro i hi
    rw [List.mem_range] at hi
    have hgrp := rotNGroup_mem inp i hi
    obtain ⟨hne, hlek, _, hsub⟩ := chunks_spec _ _ _ hgrp
    have hval : ∀ e ∈ inp.normalEmployees, vi (IVar.rotN i e 2) =
        |sumB vb ((rotNGroup inp i).map fun t => BVar.nrm e t) - 1| :=
      fun e he => calcAbs_value _ _ _ _ _ _ (rotN_abs_sat inp vb vi h i e hi he)
    rw [List.map_congr_left hval]
    have hmm : (inp.normalEmployees.map fun e =>
        |sumB vb ((rotNGroup inp i).map fun t => BVar.nrm e t) - 1|) =
        ((inp.normalEmployees.map fun e =>
          sumB vb ((rotNGroup inp i).map fun t => BVar.nrm e t)).map
            fun x => |x - 1|) := by
      rw [List.map_map]
      rfl
    rw [hmm]
    set l := inp.normalEmployees.map fun e =>
      sumB vb ((rotNGroup inp i).map fun t => BVar.nrm e t) with hl
    have hsum : l.sum = ((rotNGroup inp i).length : Int) :=
      coverage_group_sum_normal inp vb hcov _ hsub
    have hlength : l.length = inp.normalEmployees.length := by
      rw [hl, List.length_map]
    have h0 : ∀ x ∈ l, 0 ≤ x := by
      intro x hx
      obtain ⟨e, _, rfl⟩ := List.mem_map.mp hx
      exact sumB_nonneg _ _
    have hs1 : 1 ≤ l.sum := by
      rw [hsum]
      have : 0 < (rotNGroup inp i).length := List.length_pos.mpr hne
      omega
    have hsn : l.sum ≤ (l.length : Int) := by
      rw [hsum, hlength]
      exact_mod_cast hlek
    have hfin := sum_abs_sub_one_le l h0 hs1 hsn
    rw [hlength] at hfin
    exact hfin
  have hfin := sum_le_length_mul
    ((List.range (rotationsN inp).length).map fun i =>
      (inp.normalEmployees.map fun e => vi (IVar.rotN i e 2)).sum)
    (2 * ((inp.normalEmployees.length : Int) - 1))
    (by
      intro x hx
      obtain ⟨i, hi, rfl⟩ := List.mem_map.mp hx
      exact hinner i hi)
  rw [List.length_map, List.length_range] at hfin
  calc ((List.range (rotationsN inp).length).map fun i =>
        (inp.normalEmployees.map fun e => vi (IVar.rotN i e 2)).sum).sum
      ≤ ((rotationsN inp).length : Int) *
          (2 * ((inp.normalEmployees.length : Int) - 1)) := hfin
    _ = costRotationsMax inp := by
        rw [costRotationsMax]
        ring

theorem costRotationsEscalationVal_le (inp : Input) (vb : BVar → Bool)
    (vi : IVar → Int) (h : modelSat (buildModel inp) vb vi) :
    costRotationsEscalationVal inp vi ≤ costRotationsEscalationMax inp := by
  have hcov : ∀ t ∈ timeSlots inp,
      sumB vb (inp.escalationEmployees.map fun e => BVar.esc e t) = 1 := by
    intro t ht
    exact h.2 _ (hard_mem_buildModel inp _ (coverageE_mem inp t ht))
  rw [costRotationsEscalationVal, sum_flatMap_int]
  have hinner : ∀ i ∈ List.range (rotationsE inp).length,
      (inp.escalationEmployees.map fun e => vi (IVar.rotE i e 2)).sum ≤
        2 * ((inp.escalationEmployees.length : Int) - 1) := by
    intro i hi
    rw [List.mem_range] at hi
    have hgrp := rotEGroup_mem inp i hi
    obtain ⟨hne, hlek, _, hsub⟩ := chunks_spec _ _ _ hgrp
    have hval : ∀ e ∈ inp.escalationEmployees, vi (IVar.rotE i e 2) =
        |sumB vb ((rotEGroup inp i).map fun t => BVar.esc e t) - 1| :=
      fun e he => calcAbs_value _ _ _ _ _ _ (rotE_abs_sat inp vb vi h i e hi he)
    rw [List.map_congr_left hval]
    have hmm : (inp.escalationEmployees.map fun e =>
        |sumB vb ((rotEGroup inp i).map fun t => BVar.esc e t) - 1|) =
        ((inp.escalationEmployees.map fun e =>
          sumB vb ((rotEGroup inp i).map fun t => BVar.esc e t)).map
            fun x => |x - 1|) := by
      rw [List.map_map]
      rfl
    rw [hmm]
    set l := inp.escalationEmployees.map fun e =>
      sumB vb ((rotEGroup inp i).map fun t => BVar.esc e t) with hl
    have hsum : l.sum = ((rotEGroup inp i).length : Int) :=
      coverage_group_sum_escalation inp vb hcov _ hsub
    have hlength : l.length = inp.escalationEmployees.length := by
      rw [hl, List.length_map]
    have h0 : ∀ x ∈ l, 0 ≤ x := by
      intro x hx
      obtain ⟨e, _, rfl⟩ := List.mem_map.mp hx
      exact sumB_nonneg _ _
    have hs1 : 1 ≤ l.sum := by
      rw [hsum]
      have : 0 < (rotEGroup inp i).length := List.length_pos.mpr hne
      omega
    have hsn : l.sum ≤ (l.length : Int) := by
      rw [hsum, hlength]
      exact_mod_cast hlek
    have hfin := sum_abs_sub_one_le l h0 hs1 hsn
    rw [hlength] at hfin
    exact hfin
  have hfin := sum_le_length_mul
    ((List.range (rotationsE inp).length).map fun i =>
      (inp.escalationEmployees.map fun e => vi (IVar.rotE i e 2)).sum)
    (2 * ((inp.escalationEmployees.length : Int) - 1))
    (by
      intro x hx
      obtain ⟨i, hi, rfl⟩ := List.mem_map.mp hx
      exact hinner i hi)
  rw [List.length_map, List.length_range] at hfin
  calc ((List.range (rotationsE inp).length).map fun i =>
        (inp.escalationEmployees.map fun e => vi (IVar.rotE i e 2)).sum).sum
      ≤ ((rotationsE inp).length : Int) *
          (2 * ((inp.escalationEmployees.length : Int) - 1)) := hfin
    _ = costRotationsEscalationMax inp := by
        rw [costRotationsEscalationMax]
        ring

/-! ### Claim theorems -/

/-- Claim C10: in every feasible assignment the `calcAbsMinus(m1, m2)`
result variable equals `|m1 - m2|`, and whenever `|m1 - m2|` exceeds
`amountTimeSlots` the three bounded auxiliary variables admit no feasible
values at all (the encoding goes infeasible rather than clamping). -/
theorem calcAbsMinus_correct (n : Nat) (m1 m2 : Int) :
    (∀ v0 v1 v2 : Int, CalcAbsSat n m1 m2 v0 v1 v2 → v2 = |m1 - m2|) ∧
    ((n : Int) < |m1 - m2| → ¬∃ v0 v1 v2 : Int, CalcAbsSat n m1 m2 v0 v1 v2) :=
  ⟨fun v0 v1 v2 h => calcAbs_value n m1 m2 v0 v1 v2 h,
   fun h => calcAbs_infeasible n m1 m2 h⟩

theorem calcAbsMinus_correct_witness :
    ((2 : Int) = |(3 : Int) - 1|) ∧
    ¬∃ v0 v1 v2 : Int, CalcAbsSat 4 20 2 v0 v1 v2 :=
  ⟨(calcAbsMinus_correct 4 3 1).1 2 (-2) 2 (by decide),
   (calcAbsMinus_correct 4 20 2).2 (by decide)⟩

/-- Claim C5: in every feasible assignment each role's rotation cost is
at most `|R| * 2 * (|P| - 1)` and each target-workload cost variable is
at most `|timeSlotsFree|`. -/
theorem cost_bounds_hold (inp : Input) (vb : BVar → Bool) (vi : IVar → Int)
    (h : modelSat (buildModel inp) vb vi) :
    costRotationsVal inp vi ≤ costRotationsMax inp ∧
    costRotationsEscalationVal inp vi ≤ costRotationsEscalationMax inp ∧
    vi IVar.ctwN ≤ ((timeSlotsFree inp).length : Int) ∧
    vi IVar.ctwE ≤ ((timeSlotsFree inp).length : Int) :=
  ⟨costRotationsVal_le inp vb vi h,
   costRotationsEscalationVal_le inp vb vi h,
   (h.1 _ (ctwN_decl_mem inp)).2,
   (h.1 _ (ctwE_decl_mem inp)).2⟩

theorem cost_bounds_hold_witness :
    costRotationsVal singletonInput (canonVi singletonInput singletonVb) ≤
      costRotationsMax singletonInput ∧
    costRotationsEscalationVal singletonInput
        (canonVi singletonInput singletonVb) ≤
      costRotationsEscalationMax singletonInput ∧
    canonVi singletonInput singletonVb IVar.ctwN ≤
      ((timeSlotsFree singletonInput).length : Int) ∧
    canonVi singletonInput singletonVb IVar.ctwE ≤
      ((timeSlotsFree singletonInput).length : Int) :=
  cost_bounds_hold singletonInput singletonVb
    (canonVi singletonInput singletonVb) (by decide)

/-! ### Characterization of the implications emitted by the model -/

theorem buildModel_impNot_char (inp : Input) :
    ∀ c ∈ (buildModel inp).conss, ∀ a b : BVar, c = Cons.impNot a b →
      (∃ e t, a = BVar.nrm e t ∧ b = BVar.esc e t ∧
        t < inp.amountTimeSlots - 1) ∨
      (∃ e t, a = BVar.nrm e t ∧ b = BVar.nrm e (t + 1) ∧
        t < inp.amountTimeSlots - 1) := by
  intro c hc a b heq
  subst heq
  have hc2 : (Cons.impNot a b) ∈ hardCons inp ++ costRotationsCons inp ++
      costRotationsEscalationCons inp ++ costTargetWorkloadEscalationCons inp ++
      costTargetWorkloadCons inp := hc
  simp only [List.mem_append] at hc2
  rcases hc2 with (((hc2 | hc2) | hc2) | hc2) | hc2
  · -- hard constraints
    simp only [hardCons, List.mem_append] at hc2
    rcases hc2 with ((hc2 | hc2) | hc2) | hc2
    · simp only [availabilityCons, List.mem_append, List.mem_flatMap,
        List.mem_filterMap, Option.map_eq_some'] at hc2
      rcases hc2 with ⟨e, _, t, _, bb, _, heq⟩ | ⟨e, _, t, _, bb, _, heq⟩ <;>
        simp at heq
    · simp only [coverageCons, List.mem_flatMap, List.mem_cons,
        List.not_mem_nil, or_false] at hc2
      obtain ⟨t, _, heq | heq⟩ := hc2 <;> simp at heq
    · simp only [selfEscalationCons, List.mem_flatMap, List.mem_range,
        List.mem_map] at hc2
      obtain ⟨t, ht, e, _, heq⟩ := hc2
      obtain ⟨ha, hb⟩ := Cons.impNot.inj heq
      exact Or.inl ⟨e, t, ha.symm, hb.symm, ht⟩
    · simp only [noImmediateRepeatCons, List.mem_flatMap, List.mem_range,
        List.mem_map] at hc2
      obtain ⟨t, ht, e, _, heq⟩ := hc2
      obtain ⟨ha, hb⟩ := Cons.impNot.inj heq
      exact Or.inr ⟨e, t, ha.symm, hb.symm, ht⟩
  · simp only [costRotationsCons, calcAbsMinusCons, List.mem_flatMap,
      List.mem_cons, List.not_mem_nil, or_false] at hc2
    obtain ⟨i, _, e, _, heq | heq | heq⟩ := hc2 <;> simp at heq
  · simp only [costRotationsEscalationCons, calcAbsMinusCons, List.mem_flatMap,
      List.mem_cons, List.not_mem_nil, or_false] at hc2
    obtain ⟨i, _, e, _, heq | heq | heq⟩ := hc2 <;> simp at heq
  · simp only [costTargetWorkloadEscalationCons, calcAbsMinusCons,
      List.mem_append, List.mem_flatMap, List.mem_cons, List.not_mem_nil,
      or_false] at hc2
    rcases hc2 with ⟨e, _, heq | heq | heq⟩ | heq <;> simp at heq
  · simp only [costTargetWorkloadCons, calcAbsMinusCons, List.mem_append,
      List.mem_flatMap, List.mem_cons, List.not_mem_nil, or_false] at hc2
    rcases hc2 with ⟨e, _, heq | heq | heq⟩ | heq <;> simp at heq

set_option maxRecDepth 100000 in
/-- Claim C2 (code bug): the no-self-escalation cell iterates
`for t in range(amountTimeSlots - 1)`, skipping the final slot, while its
own model text demands the rule for every slot.  Consequently the full
notebook model admits a feasible assignment in which employee 1 is both
the normal and the escalation responder at the last slot (slot 15). -/
theorem selfEscalation_skips_last_slot :
    modelSat (buildModel notebookInput) nbVb (canonVi notebookInput nbVb) ∧
    nbVb (BVar.nrm 1 15) = true ∧ nbVb (BVar.esc 1 15) = true := by
  refine ⟨by decide, rfl, rfl⟩

/-- Claim C7: the no-immediate-repeat rule binds every feasible
assignment for the normal role; no emitted implication constrains the
escalation role at all, and a feasible assignment exists that keeps the
same escalation employee on two consecutive slots. -/
theorem no_immediate_repeat_normal_only :
    (∀ (inp : Input) (vb : BVar → Bool) (vi : IVar → Int),
      modelSat (buildModel inp) vb vi →
      ∀ e ∈ inp.normalEmployees, ∀ t, t + 1 < inp.amountTimeSlots →
        vb (BVar.nrm e t) = true → vb (BVar.nrm e (t + 1)) = false) ∧
    (∀ (inp : Input), ∀ c ∈ (buildModel inp).conss, ∀ e t1 t2 : Nat,
      c ≠ Cons.impNot (BVar.esc e t1) (BVar.esc e t2)) ∧
    (∃ vb vi, modelSat (buildModel escRepeatInput) vb vi ∧
      vb (BVar.esc 2 0) = true ∧ vb (BVar.esc 2 1) = true) := by
  refine ⟨?_, ?_, ?_⟩
  · intro inp vb vi h e he t ht hT
    have hm := h.2 _ (hard_mem_buildModel inp _
      (noRepeat_mem inp t e (by omega) he))
    exact hm hT
  · intro inp c hc e t1 t2 heq
    rcases buildModel_impNot_char inp c hc _ _ heq with
      ⟨e2, t3, ha, _, _⟩ | ⟨e2, t3, ha, _, _⟩ <;> simp at ha
  · exact ⟨escRepeatVb, canonVi escRepeatInput escRepeatVb, by decide, rfl, rfl⟩

theorem no_immediate_repeat_normal_only_witness :
    escRepeatVb (BVar.nrm 0 1) = false :=
  no_immediate_repeat_normal_only.1 escRepeatInput escRepeatVb
    (canonVi escRepeatInput escRepeatVb) (by decide) 0 (by decide) 0
    (by decide) (by decide)

/-- Claim C6: every feasible assignment puts exactly one pool employee on
each slot in each role; the rule is emitted as one linear equality per
slot per role, and no pairwise same-slot mutual-exclusion implication is
emitted anywhere in the model. -/
theorem exactly_one_coverage :
    (∀ (inp : Input) (vb : BVar → Bool) (vi : IVar → Int),
      modelSat (buildModel inp) vb vi → ∀ t ∈ timeSlots inp,
        sumB vb (inp.normalEmployees.map fun e => BVar.nrm e t) = 1 ∧
        sumB vb (inp.escalationEmployees.map fun e => BVar.esc e t) = 1) ∧
    (∀ (inp : Input), ∀ t ∈ timeSlots inp,
      Cons.eqSum (inp.normalEmployees.map fun e => BVar.nrm e t) 1 ∈
        (buildModel inp).conss ∧
      Cons.eqSum (inp.escalationEmployees.map fun e => BVar.esc e t) 1 ∈
        (buildModel inp).conss) ∧
    (∀ (inp : Input), ∀ c ∈ (buildModel inp).conss, ∀ e1 e2 t : Nat,
      c ≠ Cons.impNot (BVar.nrm e1 t) (BVar.nrm e2 t) ∧
      c ≠ Cons.impNot (BVar.esc e1 t) (BVar.esc e2 t)) := by
  refine ⟨?_, ?_, ?_⟩
  · intro inp vb vi h t ht
    exact ⟨h.2 _ (hard_mem_buildModel inp _ (coverageN_mem inp t ht)),
      h.2 _ (hard_mem_buildModel inp _ (coverageE_mem inp t ht))⟩
  · intro inp t ht
    exact ⟨hard_mem_buildModel inp _ (coverageN_mem inp t ht),
      hard_mem_buildModel inp _ (coverageE_mem inp t ht)⟩
  · intro inp c hc e1 e2 t
    constructor
    · intro heq
      rcases buildModel_impNot_char inp c hc _ _ heq with
        ⟨e3, t3, _, hb, _⟩ | ⟨e3, t3, ha, hb, _⟩
      · simp at hb
      · obtain ⟨_, ht1⟩ := BVar.nrm.inj ha
        obtain ⟨_, ht2⟩ := BVar.nrm.inj hb
        omega
    · intro heq
      rcases buildModel_impNot_char inp c hc _ _ heq with
        ⟨e3, t3, ha, _, _⟩ | ⟨e3, t3, ha, _, _⟩ <;> simp at ha

theorem exactly_one_coverage_witness :
    sumB singletonVb (singletonInput.normalEmployees.map
      fun e => BVar.nrm e 0) = 1 ∧
    sumB singletonVb (singletonInput.escalationEmployees.map
      fun e => BVar.esc e 0) = 1 :=
  exactly_one_coverage.1 singletonInput singletonVb
    (canonVi singletonInput singletonVb) (by decide) 0 (by decide)

/-- Claim C9: when a role's pool is a single employee, every rotation
group is a singleton slot which the exactly-one constraint assigns to
that employee, so the role's rotation cost is 0 in every feasible
assignment. -/
theorem single_employee_rotation_cost_zero (inp : Input) (vb : BVar → Bool)
    (vi : IVar → Int) (h : modelSat (buildModel inp) vb vi) :
    (∀ e, inp.normalEmployees = [e] → costRotationsVal inp vi = 0) ∧
    (∀ e, inp.escalationEmployees = [e] →
      costRotationsEscalationVal inp vi = 0) := by
  constructor
  · intro e hpool
    rw [costRotationsVal]
    apply List.sum_eq_zero
    intro x hx
    rw [List.mem_flatMap] at hx
    obtain ⟨i, hi, hx⟩ := hx
    rw [List.mem_range] at hi
    rw [hpool] at hx
    simp only [List.map_cons, List.map_nil, List.mem_cons, List.not_mem_nil,
      or_false] at hx
    subst hx
    have habs := rotN_abs_sat inp vb vi h i e hi
      (by rw [hpool]; exact List.mem_cons_self e [])
    have hval := calcAbs_value _ _ _ _ _ _ habs
    rw [hval]
    have hgrp := rotNGroup_mem inp i hi
    obtain ⟨hne, hlek, _, hsub⟩ := chunks_spec _ _ _ hgrp
    have hlen1 : (rotNGroup inp i).length = 1 := by
      have h1 : 0 < (rotNGroup inp i).length := List.length_pos.mpr hne
      rw [hpool] at hlek
      simp only [List.length_cons, List.length_nil] at hlek
      omega
    obtain ⟨t, hgt⟩ := List.length_eq_one.mp hlen1
    have ht : t ∈ timeSlots inp :=
      hsub t (by rw [hgt]; exact List.mem_cons_self t [])
    have hcov : sumB vb (inp.normalEmployees.map fun e2 => BVar.nrm e2 t) = 1 :=
      h.2 _ (hard_mem_buildModel inp _ (coverageN_mem inp t ht))
    rw [hpool] at hcov
    rw [hgt]
    have hw : sumB vb ([t].map fun t2 => BVar.nrm e t2) = 1 := by
      simpa [sumB] using hcov
    rw [hw]
    simp
  · intro e hpool
    rw [costRotationsEscalationVal]
    apply List.sum_eq_zero
    intro x hx
    rw [List.mem_flatMap] at hx
    obtain ⟨i, hi, hx⟩ := hx
    rw [List.mem_range] at hi
    rw [hpool] at hx
    simp only [List.map_cons, List.map_nil, List.mem_cons, List.not_mem_nil,
      or_false] at hx
    subst hx
    have habs := rotE_abs_sat inp vb vi h i e hi
      (by rw [hpool]; exact List.mem_cons_self e [])
    have hval := calcAbs_value _ _ _ _ _ _ habs
    rw [hval]
    have hgrp := rotEGroup_mem inp i hi
    obtain ⟨hne, hlek, _, hsub⟩ := chunks_spec _ _ _ hgrp
    have hlen1 : (rotEGroup inp i).length = 1 := by
      have h1 : 0 < (rotEGroup inp i).length := List.length_pos.mpr hne
      rw [hpool] at hlek
      simp only [List.length_cons, List.length_nil] at hlek
      omega
    obtain ⟨t, hgt⟩ := List.length_eq_one.mp hlen1
    have ht : t ∈ timeSlots inp :=
      hsub t (by rw [hgt]; exact List.mem_cons_self t [])
    have hcov : sumB vb (inp.escalationEmployees.map
        fun e2 => BVar.esc e2 t) = 1 :=
      h.2 _ (hard_mem_buildModel inp _ (coverageE_mem inp t ht))
    rw [hpool] at hcov
    rw [hgt]
    have hw : sumB vb ([t].map fun t2 => BVar.esc e t2) = 1 := by
      simpa [sumB] using hcov
    rw [hw]
    simp
  

theorem single_employee_rotation_cost_zero_witness :
    costRotationsVal singletonInput (canonVi singletonInput singletonVb) = 0 ∧
    costRotationsEscalationVal singletonInput
      (canonVi singletonInput singletonVb) = 0 := by
  have h := single_employee_rotation_cost_zero singletonInput singletonVb
    (canonVi singletonInput singletonVb) (by decide)
  exact ⟨h.1 7 rfl, h.2 8 rfl⟩

/-- Claim C1 counterexample: two feasible assignments of `lexInput`.
Schedule a strictly improves the claimed top-priority escalation rotation
cost (0 versus 2, all costs within their stated bounds), yet its
objective is strictly larger (24 versus 2): with the weights
`1, M1, M1*M2, M1*M2*M3` an improvement in the escalation rotation cost
is outweighed by the normal rotation term, so the claimed strict
priority C1 over C2 over C3 over C4 fails on the code's objective. -/
theorem objective_priority_counterexample :
    modelSat (buildModel lexInput) lexVbA (canonVi lexInput lexVbA) ∧
    modelSat (buildModel lexInput) lexVbB (canonVi lexInput lexVbB) ∧
    costRotationsEscalationVal lexInput (canonVi lexInput lexVbA) <
      costRotationsEscalationVal lexInput (canonVi lexInput lexVbB) ∧
    ¬(costOverallVal lexInput (canonVi lexInput lexVbA) <
      costOverallVal lexInput (canonVi lexInput lexVbB)) :=
  ⟨by decide, by decide, by decide, by decide⟩

/-- Claim C1 amended: the composed objective does not enforce the claimed
strict priority order; what the weights `1, m1, m1*m2, m1*m2*m3` do
guarantee is the reverse-direction weak adjacent dominance: a one-unit
improvement in a cost term is never outweighed by any in-bounds change of
the immediately preceding (more cheaply weighted) term alone, all other
terms equal — the objective does not increase. -/
theorem costOverall_adjacent_weak_dominance
    (m1 m2 m3 cRE cR cTWE cTW cRE2 cR2 cTWE2 cTW2 : Int)
    (hm1 : 0 ≤ m1) (hm2 : 0 ≤ m2) (hm3 : 0 ≤ m3) :
    (0 ≤ cRE2 → cRE ≤ m1 → cR < cR2 → cTWE = cTWE2 → cTW = cTW2 →
      costOverall m1 m2 m3 cRE cR cTWE cTW ≤
        costOverall m1 m2 m3 cRE2 cR2 cTWE2 cTW2) ∧
    (0 ≤ cR2 → cR ≤ m2 → cRE = cRE2 → cTWE < cTWE2 → cTW = cTW2 →
      costOverall m1 m2 m3 cRE cR cTWE cTW ≤
        costOverall m1 m2 m3 cRE2 cR2 cTWE2 cTW2) ∧
    (0 ≤ cTWE2 → cTWE ≤ m3 → cRE = cRE2 → cR = cR2 → cTW < cTW2 →
      costOverall m1 m2 m3 cRE cR cTWE cTW ≤
        costOverall m1 m2 m3 cRE2 cR2 cTWE2 cTW2) := by
  refine ⟨?_, ?_, ?_⟩
  · intro h0 hb hlt he1 he2
    subst he1; subst he2
    simp only [costOverall]
    have h := mul_le_mul_of_nonneg_left (show cR + 1 ≤ cR2 by omega) hm1
    have h2 : m1 * (cR + 1) = m1 * cR + m1 := by ring
    linarith
  · intro h0 hb he1 hlt he2
    subst he1; subst he2
    simp only [costOverall]
    have ha := mul_le_mul_of_nonneg_left (show cTWE + 1 ≤ cTWE2 by omega)
      (mul_nonneg hm1 hm2)
    have hb2 := mul_le_mul_of_nonneg_left hb hm1
    have hc := mul_nonneg hm1 h0
    have hd : m1 * m2 * (cTWE + 1) = m1 * m2 * cTWE + m1 * m2 := by ring
    linarith
  · intro h0 hb he1 he2 hlt
    subst he1; subst he2
    simp only [costOverall]
    have ha := mul_le_mul_of_nonneg_left (show cTW + 1 ≤ cTW2 by omega)
      (mul_nonneg (mul_nonneg hm1 hm2) hm3)
    have hb2 := mul_le_mul_of_nonneg_left hb (mul_nonneg hm1 hm2)
    have hc := mul_nonneg (mul_nonneg hm1 hm2) h0
    have hd : m1 * m2 * m3 * (cTW + 1) = m1 * m2 * m3 * cTW + m1 * m2 * m3 := by
      ring
    linarith

theorem costOverall_adjacent_weak_dominance_witness :
    costOverall 2 2 2 2 0 0 0 ≤ costOverall 2 2 2 0 1 0 0 ∧
    costOverall 2 2 2 1 2 0 0 ≤ costOverall 2 2 2 1 0 1 0 ∧
    costOverall 2 2 2 1 1 2 0 ≤ costOverall 2 2 2 1 1 0 1 := by
  have h := costOverall_adjacent_weak_dominance 2 2 2 2 0 0 0 0 1 0 0
    (by decide) (by decide) (by decide)
  have h2 := costOverall_adjacent_weak_dominance 2 2 2 1 2 0 0 1 0 1 0
    (by decide) (by decide) (by decide)
  have h3 := costOverall_adjacent_weak_dominance 2 2 2 1 1 2 0 1 1 0 1
    (by decide) (by decide) (by decide)
  exact ⟨h.1 (by decide) (by decide) (by decide) rfl rfl,
    h2.2.1 (by decide) (by decide) rfl (by decide) rfl,
    h3.2.2 (by decide) (by decide) rfl rfl (by decide)⟩

/-- Claim C3 counterexample: for `hugeTargetInput` (one slot, normal
target workload 10) the hard constraints are satisfiable, but the full
model with the cost-term constraints is unsatisfiable: the auxiliary
variable equal to `10 - workload` is bounded to `[-1, 1]` yet forced to
at least 9, so an oversized target workload by itself makes the model
infeasible. -/
theorem large_target_infeasible :
    (∃ vb, hardSat hugeTargetInput vb) ∧
    ¬∃ vb vi, modelSat (buildModel hugeTargetInput) vb vi := by
  constructor
  · exact ⟨hugeTargetVb, by decide⟩
  · rintro ⟨vb, vi, hd, hc⟩
    have hdm := hd (IVar.tgtN 0 1, (-1 : Int), (1 : Int))
      (tgtN_decl_mem hugeTargetInput 0 (by decide) _ (by decide))
    have hcm := hc (Cons.eqIvarSubSum (IVar.tgtN 0 1) 10 [BVar.nrm 0 0])
      (tgtN_cons_mem hugeTargetInput 0 (by decide) _ (by decide))
    have hcm2 : vi (IVar.tgtN 0 1) = 10 - sumB vb [BVar.nrm 0 0] := hcm
    have h1 : sumB vb [BVar.nrm 0 0] ≤ 1 := by
      have := btoi_le_one (vb (BVar.nrm 0 0))
      simp only [sumB, List.map_cons, List.map_nil, List.sum_cons,
        List.sum_nil]
      omega
    have h2 : vi (IVar.tgtN 0 1) ≤ 1 := hdm.2
    omega

/-! ### Reduction equations of the canonical valuation -/

theorem canonVi_rotN0 (inp : Input) (vb : BVar → Bool) (i e : Nat) :
    canonVi inp vb (IVar.rotN i e 0) =
      sumB vb ((rotNGroup inp i).map fun t => BVar.nrm e t) - 1 := rfl

theorem canonVi_rotN1 (inp : Input) (vb : BVar → Bool) (i e : Nat) :
    canonVi inp vb (IVar.rotN i e 1) =
      1 - sumB vb ((rotNGroup inp i).map fun t => BVar.nrm e t) := rfl

theorem canonVi_rotN2 (inp : Input) (vb : BVar → Bool) (i e : Nat) :
    canonVi inp vb (IVar.rotN i e 2) =
      |sumB vb ((rotNGroup inp i).map fun t => BVar.nrm e t) - 1| := rfl

theorem canonVi_rotE0 (inp : Input) (vb : BVar → Bool) (i e : Nat) :
    canonVi inp vb (IVar.rotE i e 0) =
      sumB vb ((rotEGroup inp i).map fun t => BVar.esc e t) - 1 := rfl

theorem canonVi_rotE1 (inp : Input) (vb : BVar → Bool) (i e : Nat) :
    canonVi inp vb (IVar.rotE i e 1) =
      1 - sumB vb ((rotEGroup inp i).map fun t => BVar.esc e t) := rfl

theorem canonVi_rotE2 (inp : Input) (vb : BVar → Bool) (i e : Nat) :
    canonVi inp vb (IVar.rotE i e 2) =
      |sumB vb ((rotEGroup inp i).map fun t => BVar.esc e t) - 1| := rfl

theorem canonVi_tgtN0 (inp : Input) (vb : BVar → Bool) (e : Nat) :
    canonVi inp vb (IVar.tgtN e 0) =
      sumB vb ((timeSlotsFree inp).map fun t => BVar.nrm e t) -
        inp.targetWorkloadNormal e := rfl

theorem canonVi_tgtN1 (inp : Input) (vb : BVar → Bool) (e : Nat) :
    canonVi inp vb (IVar.tgtN e 1) =
      inp.targetWorkloadNormal e -
        sumB vb ((timeSlotsFree inp).map fun t => BVar.nrm e t) := rfl

theorem canonVi_tgtN2 (inp : Input) (vb : BVar → Bool) (e : Nat) :
    canonVi inp vb (IVar.tgtN e 2) =
      |sumB vb ((timeSlotsFree inp).map fun t => BVar.nrm e t) -
        inp.targetWorkloadNormal e| := rfl

theorem canonVi_tgtE0 (inp : Input) (vb : BVar → Bool) (e : Nat) :
    canonVi inp vb (IVar.tgtE e 0) =
      sumB vb ((timeSlotsFree inp).map fun t => BVar.esc e t) -
        inp.targetWorkloadEscalation e := rfl

theorem canonVi_tgtE1 (inp : Input) (vb : BVar → Bool) (e : Nat) :
    canonVi inp vb (IVar.tgtE e 1) =
      inp.targetWorkloadEscalation e -
        sumB vb ((timeSlotsFree inp).map fun t => BVar.esc e t) := rfl

theorem canonVi_tgtE2 (inp : Input) (vb : BVar → Bool) (e : Nat) :
    canonVi inp vb (IVar.tgtE e 2) =
      |sumB vb ((timeSlotsFree inp).map fun t => BVar.esc e t) -
        inp.targetWorkloadEscalation e| := rfl

theorem canonVi_ctwN (inp : Input) (vb : BVar → Bool) :
    canonVi inp vb IVar.ctwN = intMaxList (inp.normalEmployees.map fun e =>
      |sumB vb ((timeSlotsFree inp).map fun t => BVar.nrm e t) -
        inp.targetWorkloadNormal e|) := rfl

theorem canonVi_ctwE (inp : Input) (vb : BVar → Bool) :
    canonVi inp vb IVar.ctwE = intMaxList (inp.escalationEmployees.map fun e =>
      |sumB vb ((timeSlotsFree inp).map fun t => BVar.esc e t) -
        inp.targetWorkloadEscalation e|) := rfl

/-- The two components of an `AddMaxEquality(abs, [m - c, c - m])`
constraint, satisfied by `|m - c|`. -/
theorem maxEq_abs_parts (m c : Int) :
    |m - c| ∈ [m - c, c - m] ∧ ∀ x ∈ [m - c, c - m], x ≤ |m - c| := by
  constructor
  · rcases abs_cases (m - c) with ⟨he, _⟩ | ⟨he, _⟩
    · rw [he]; exact List.mem_cons_self _ _
    · have hv : |m - c| = c - m := by omega
      rw [hv]
      exact List.mem_cons_of_mem _ (List.mem_cons_self _ _)
  · intro x hx
    simp only [List.mem_cons, List.mem_singleton, List.not_mem_nil,
      or_false] at hx
    have h1 := le_abs_self (m - c)
    have h2 := neg_abs_le (m - c)
    rcases hx with rfl | rfl <;> omega

theorem rotN_workload_le (inp : Input) (vb : BVar → Bool) (i : Nat)
    (hi : i < (rotationsN inp).length) (e : Nat) :
    sumB vb ((rotNGroup inp i).map fun t => BVar.nrm e t) ≤
      (inp.amountTimeSlots : Int) := by
  have h1 := sumB_le_length vb ((rotNGroup inp i).map fun t => BVar.nrm e t)
  rw [List.length_map] at h1
  obtain ⟨_, _, hlen, _⟩ := chunks_spec _ _ _ (rotNGroup_mem inp i hi)
  have hlen2 : (rotNGroup inp i).length ≤ inp.amountTimeSlots := by
    simpa [timeSlots, List.length_range] using hlen
  omega

theorem rotE_workload_le (inp : Input) (vb : BVar → Bool) (i : Nat)
    (hi : i < (rotationsE inp).length) (e : Nat) :
    sumB vb ((rotEGroup inp i).map fun t => BVar.esc e t) ≤
      (inp.amountTimeSlots : Int) := by
  have h1 := sumB_le_length vb ((rotEGroup inp i).map fun t => BVar.esc e t)
  rw [List.length_map] at h1
  obtain ⟨_, _, hlen, _⟩ := chunks_spec _ _ _ (rotEGroup_mem inp i hi)
  have hlen2 : (rotEGroup inp i).length ≤ inp.amountTimeSlots := by
    simpa [timeSlots, List.length_range] using hlen
  omega

theorem free_workload_le (inp : Input) (vb : BVar → Bool) (f : Nat → BVar) :
    sumB vb ((timeSlotsFree inp).map f) ≤ ((timeSlotsFree inp).length : Int) := by
  have h1 := sumB_le_length vb ((timeSlotsFree inp).map f)
  rw [List.length_map] at h1
  exact h1

/-- Claim C3 amended: with every target workload in
`[0, |timeSlotsFree|]`, any assignment satisfying the hard constraints
extends (via the canonical values of the auxiliary variables) to a
satisfying assignment of the full model, so the cost-term constraints
never destroy feasibility; targets beyond roughly `|timeSlotsFree|` can
(see the counterexample). -/
theorem bounded_targets_feasible (inp : Input) (vb : BVar → Bool)
    (hN : 1 ≤ inp.amountTimeSlots)
    (hnp : inp.normalEmployees ≠ []) (hep : inp.escalationEmployees ≠ [])
    (htN : ∀ e ∈ inp.normalEmployees, 0 ≤ inp.targetWorkloadNormal e ∧
      inp.targetWorkloadNormal e ≤ ((timeSlotsFree inp).length : Int))
    (htE : ∀ e ∈ inp.escalationEmployees, 0 ≤ inp.targetWorkloadEscalation e ∧
      inp.targetWorkloadEscalation e ≤ ((timeSlotsFree inp).length : Int))
    (hard : hardSat inp vb) :
    modelSat (buildModel inp) vb (canonVi inp vb) := by
  have hLN : ((timeSlotsFree inp).length : Int) ≤ (inp.amountTimeSlots : Int) :=
    by exact_mod_cast timeSlotsFree_length_le inp
  constructor
  · -- declared variable bounds
    intro d hd
    have hd2 : d ∈ costRotationsDecls inp ++ costRotationsEscalationDecls inp ++
        costTargetWorkloadEscalationDecls inp ++ costTargetWorkloadDecls inp :=
      hd
    simp only [List.mem_append] at hd2
    rcases hd2 with ((hd2 | hd2) | hd2) | hd2
    · simp only [costRotationsDecls, calcAbsMinusDecls, List.mem_flatMap,
        List.mem_range, List.mem_cons, List.not_mem_nil, or_false] at hd2
      obtain ⟨i, hi, e, he, heq | heq | heq⟩ := hd2 <;> subst heq <;>
        refine ⟨?_, ?_⟩ <;>
        simp only [canonVi_rotN0, canonVi_rotN1, canonVi_rotN2]
      all_goals {
        have hw0 := sumB_nonneg vb ((rotNGroup inp i).map fun t => BVar.nrm e t)
        have hwN := rotN_workload_le inp vb i hi e
        have habs := abs_nonneg
          (sumB vb ((rotNGroup inp i).map fun t => BVar.nrm e t) - 1)
        have habs2 : |sumB vb ((rotNGroup inp i).map fun t => BVar.nrm e t) - 1| ≤
            (inp.amountTimeSlots : Int) := by
          rw [abs_le]
          omega
        omega
      }
    · simp only [costRotationsEscalationDecls, calcAbsMinusDecls,
        List.mem_flatMap, List.mem_range, List.mem_cons, List.not_mem_nil,
        or_false] at hd2
      obtain ⟨i, hi, e, he, heq | heq | heq⟩ := hd2 <;> subst heq <;>
        refine ⟨?_, ?_⟩ <;>
        simp only [canonVi_rotE0, canonVi_rotE1, canonVi_rotE2]
      all_goals {
        have hw0 := sumB_nonneg vb ((rotEGroup inp i).map fun t => BVar.esc e t)
        have hwN := rotE_workload_le inp vb i hi e
        have habs := abs_nonneg
          (sumB vb ((rotEGroup inp i).map fun t => BVar.esc e t) - 1)
        have habs2 : |sumB vb ((rotEGroup inp i).map fun t => BVar.esc e t) - 1| ≤
            (inp.amountTimeSlots : Int) := by
          rw [abs_le]
          omega
        omega
      }
    · simp only [costTargetWorkloadEscalationDecls, calcAbsMinusDecls,
        List.mem_cons, List.mem_flatMap, List.not_mem_nil, or_false] at hd2
      rcases hd2 with heq | ⟨e, he, heq | heq | heq⟩
      · subst heq
        refine ⟨?_, ?_⟩ <;> simp only [canonVi_ctwE]
        · exact intMaxList_nonneg _
        · apply intMaxList_le
          · exact_mod_cast Nat.zero_le _
          · intro x hx
            obtain ⟨e, he, rfl⟩ := List.mem_map.mp hx
            have hw0 := sumB_nonneg vb
              ((timeSlotsFree inp).map fun t => BVar.esc e t)
            have hwL := free_workload_le inp vb (fun t => BVar.esc e t)
            have ht := htE e he
            rw [abs_le]
            omega
      all_goals {
        subst heq
        refine ⟨?_, ?_⟩ <;>
          simp only [canonVi_tgtE0, canonVi_tgtE1, canonVi_tgtE2] <;>
        · have hw0 := sumB_nonneg vb
            ((timeSlotsFree inp).map fun t => BVar.esc e t)
          have hwL := free_workload_le inp vb (fun t => BVar.esc e t)
          have ht := htE e he
          have habs := abs_nonneg
            (sumB vb ((timeSlotsFree inp).map fun t => BVar.esc e t) -
              inp.targetWorkloadEscalation e)
          have habs2 : |sumB vb ((timeSlotsFree inp).map fun t => BVar.esc e t) -
              inp.targetWorkloadEscalation e| ≤
              ((timeSlotsFree inp).length : Int) := by
            rw [abs_le]
            omega
          omega
      }
    · simp only [costTargetWorkloadDecls, calcAbsMinusDecls,
        List.mem_cons, List.mem_flatMap, List.not_mem_nil, or_false] at hd2
      rcases hd2 with heq | ⟨e, he, heq | heq | heq⟩
      · subst heq
        refine ⟨?_, ?_⟩ <;> simp only [canonVi_ctwN]
        · exact intMaxList_nonneg _
        · apply intMaxList_le
          · exact_mod_cast Nat.zero_le _
          · intro x hx
            obtain ⟨e, he, rfl⟩ := List.mem_map.mp hx
            have hw0 := sumB_nonneg vb
              ((timeSlotsFree inp).map fun t => BVar.nrm e t)
            have hwL := free_workload_le inp vb (fun t => BVar.nrm e t)
            have ht := htN e he
            rw [abs_le]
            omega
      all_goals {
        subst heq
        refine ⟨?_, ?_⟩ <;>
          simp only [canonVi_tgtN0, canonVi_tgtN1, canonVi_tgtN2] <;>
        · have hw0 := sumB_nonneg vb
            ((timeSlotsFree inp).map fun t => BVar.nrm e t)
          have hwL := free_workload_le inp vb (fun t => BVar.nrm e t)
          have ht := htN e he
          have habs := abs_nonneg
            (sumB vb ((timeSlotsFree inp).map fun t => BVar.nrm e t) -
              inp.targetWorkloadNormal e)
          have habs2 : |sumB vb ((timeSlotsFree inp).map fun t => BVar.nrm e t) -
              inp.targetWorkloadNormal e| ≤
              ((timeSlotsFree inp).length : Int) := by
            rw [abs_le]
            omega
          omega
      }
  · -- constraints
    intro c hc
    have hc2 : c ∈ hardCons inp ++ costRotationsCons inp ++
        costRotationsEscalationCons inp ++ costTargetWorkloadEscalationCons inp ++
        costTargetWorkloadCons inp := hc
    simp only [List.mem_append] at hc2
    rcases hc2 with (((hc2 | hc2) | hc2) | hc2) | hc2
    · exact (hardSat_iff_all inp vb (canonVi inp vb)).mpr hard c hc2
    · simp only [costRotationsCons, calcAbsMinusCons, List.mem_flatMap,
        List.mem_range, List.mem_cons, List.not_mem_nil, or_false] at hc2
      obtain ⟨i, hi, e, he, heq | heq | heq⟩ := hc2 <;> subst heq
      · exact canonVi_rotN0 inp vb i e
      · exact canonVi_rotN1 inp vb i e
      · exact maxEq_abs_parts
          (sumB vb ((rotNGroup inp i).map fun t => BVar.nrm e t)) 1
    · simp only [costRotationsEscalationCons, calcAbsMinusCons,
        List.mem_flatMap, List.mem_range, List.mem_cons, List.not_mem_nil,
        or_false] at hc2
      obtain ⟨i, hi, e, he, heq | heq | heq⟩ := hc2 <;> subst heq
      · exact canonVi_rotE0 inp vb i e
      · exact canonVi_rotE1 inp vb i e
      · exact maxEq_abs_parts
          (sumB vb ((rotEGroup inp i).map fun t => BVar.esc e t)) 1
    · simp only [costTargetWorkloadEscalationCons, calcAbsMinusCons,
        List.mem_append, List.mem_flatMap, List.mem_cons, List.not_mem_nil,
        or_false] at hc2
      rcases hc2 with ⟨e, he, heq | heq | heq⟩ | heq
      · subst heq; exact canonVi_tgtE0 inp vb e
      · subst heq; exact canonVi_tgtE1 inp vb e
      · subst heq
        exact maxEq_abs_parts
          (sumB vb ((timeSlotsFree inp).map fun t => BVar.esc e t))
          (inp.targetWorkloadEscalation e)
      · subst heq
        show canonVi inp vb IVar.ctwE ∈
            ((inp.escalationEmployees.map fun e => IVar.tgtE e 2).map
              (canonVi inp vb)) ∧
          ∀ x ∈ (inp.escalationEmployees.map fun e => IVar.tgtE e 2).map
              (canonVi inp vb), x ≤ canonVi inp vb IVar.ctwE
        rw [List.map_map]
        have hmap : (inp.escalationEmployees.map
            (canonVi inp vb ∘ fun e => IVar.tgtE e 2)) =
            inp.escalationEmployees.map fun e =>
              |sumB vb ((timeSlotsFree inp).map fun t => BVar.esc e t) -
                inp.targetWorkloadEscalation e| := rfl
        rw [hmap, canonVi_ctwE]
        have hne : (inp.escalationEmployees.map fun e =>
            |sumB vb ((timeSlotsFree inp).map fun t => BVar.esc e t) -
              inp.targetWorkloadEscalation e|) ≠ [] := by
          intro hcon
          exact hep (List.map_eq_nil_iff.mp hcon)
        have h0 : ∀ x ∈ (inp.escalationEmployees.map fun e =>
            |sumB vb ((timeSlotsFree inp).map fun t => BVar.esc e t) -
              inp.targetWorkloadEscalation e|), 0 ≤ x := by
          intro x hx
          obtain ⟨e, _, rfl⟩ := List.mem_map.mp hx
          exact abs_nonneg _
        exact ⟨intMaxList_mem _ hne h0, intMaxList_ub _⟩
    · simp only [costTargetWorkloadCons, calcAbsMinusCons,
        List.mem_append, List.mem_flatMap, List.mem_cons, List.not_mem_nil,
        or_false] at hc2
      rcases hc2 with ⟨e, he, heq | heq | heq⟩ | heq
      · subst heq; exact canonVi_tgtN0 inp vb e
      · subst heq; exact canonVi_tgtN1 inp vb e
      · subst heq
        exact maxEq_abs_parts
          (sumB vb ((timeSlotsFree inp).map fun t => BVar.nrm e t))
          (inp.targetWorkloadNormal e)
      · subst heq
        show canonVi inp vb IVar.ctwN ∈
            ((inp.normalEmployees.map fun e => IVar.tgtN e 2).map
              (canonVi inp vb)) ∧
          ∀ x ∈ (inp.normalEmployees.map fun e => IVar.tgtN e 2).map
              (canonVi inp vb), x ≤ canonVi inp vb IVar.ctwN
        rw [List.map_map]
        have hmap : (inp.normalEmployees.map
            (canonVi inp vb ∘ fun e => IVar.tgtN e 2)) =
            inp.normalEmployees.map fun e =>
              |sumB vb ((timeSlotsFree inp).map fun t => BVar.nrm e t) -
                inp.targetWorkloadNormal e| := rfl
        rw [hmap, canonVi_ctwN]
        have hne : (inp.normalEmployees.map fun e =>
            |sumB vb ((timeSlotsFree inp).map fun t => BVar.nrm e t) -
              inp.targetWorkloadNormal e|) ≠ [] := by
          intro hcon
          exact hnp (List.map_eq_nil_iff.mp hcon)
        have h0 : ∀ x ∈ (inp.normalEmployees.map fun e =>
            |sumB vb ((timeSlotsFree inp).map fun t => BVar.nrm e t) -
              inp.targetWorkloadNormal e|), 0 ≤ x := by
          intro x hx
          obtain ⟨e, _, rfl⟩ := List.mem_map.mp hx
          exact abs_nonneg _
        exact ⟨intMaxList_mem _ hne h0, intMaxList_ub _⟩

theorem bounded_targets_feasible_witness :
    modelSat (buildModel escRepeatInput) escRepeatVb
      (canonVi escRepeatInput escRepeatVb) :=
  bounded_targets_feasible escRepeatInput escRepeatVb (by decide) (by decide)
    (by decide) (by decide) (by decide) (by decide)

/-! ### Availability conditions and constructive satisfiability -/

theorem sumB_singleton_eq_one (vb : BVar → Bool) (v : BVar)
    (h : sumB vb [v] = 1) : vb v = true := by
  simp only [sumB, List.map_cons, List.map_nil, List.sum_cons, List.sum_nil,
    btoi] at h
  cases hv : vb v
  · rw [hv] at h; simp at h
  · rfl

/-- Claim C4 counterexample: `singleNormalInput` satisfies the claim's
availability condition (everything is FREE), yet the conjunction of all
emitted hard constraints is unsatisfiable: coverage forces the single
normal employee onto both slots, which no-immediate-repeat forbids. -/
theorem hard_constraints_unsat_single_normal :
    availOK singleNormalInput ∧ ¬∃ vb, hardSat singleNormalInput vb := by
  constructor
  · decide
  · rintro ⟨vb, h⟩
    have hb0 : vb (BVar.nrm 1 0) = true :=
      sumB_singleton_eq_one vb _
        (h _ (coverageN_mem singleNormalInput 0 (by decide)))
    have hb1 : vb (BVar.nrm 1 1) = true :=
      sumB_singleton_eq_one vb _
        (h _ (coverageN_mem singleNormalInput 1 (by decide)))
    have hr := h _ (noRepeat_mem singleNormalInput 0 1 (by decide) (by decide))
    have := hr hb0
    rw [hb1] at this
    exact Bool.noConfusion this

theorem chooseAt_spec (pool : List Nat) (cm : Nat → Nat → Option Bool)
    (t : Nat) (hsome : ∃ e ∈ pool, cm e t ≠ some false)
    (hone : ∀ e1 ∈ pool, ∀ e2 ∈ pool, cm e1 t = some true →
      cm e2 t = some true → e1 = e2) :
    chooseAt pool cm t ∈ pool ∧
    (∀ e ∈ pool, cm e t = some true → e = chooseAt pool cm t) ∧
    (∀ e ∈ pool, cm e t = some false → e ≠ chooseAt pool cm t) := by
  unfold chooseAt
  cases hf : pool.find? (fun e => cm e t == some true) with
  | some e0 =>
    have he0 : e0 ∈ pool := List.mem_of_find?_eq_some hf
    have hp : cm e0 t = some true := by
      have := List.find?_some hf
      simpa using this
    refine ⟨he0, ?_, ?_⟩
    · intro e he hcm
      exact hone e he e0 he0 hcm hp
    · intro e he hcm heq
      rw [heq, hp] at hcm
      exact Option.noConfusion hcm fun hb => Bool.noConfusion hb
  | none =>
    have hsome2 : (pool.find? (fun e => cm e t != some false)).isSome := by
      rw [List.find?_isSome]
      obtain ⟨e, he, hne⟩ := hsome
      exact ⟨e, he, by simpa using hne⟩
    obtain ⟨e0, hf2⟩ := Option.isSome_iff_exists.mp hsome2
    rw [hf2]
    simp only [Option.getD_some]
    have he0 : e0 ∈ pool := List.mem_of_find?_eq_some hf2
    have hp : cm e0 t ≠ some false := by
      have := List.find?_some hf2
      simpa using this
    refine ⟨he0, ?_, ?_⟩
    · intro e he hcm
      have hall := List.find?_eq_none.mp hf e he
      simp [hcm] at hall
    · intro e he hcm heq
      rw [heq] at hcm
      exact hp hcm

/-- Claim C4 amended: under the stated availability condition (with
duplicate-free pools) the availability and exactly-one-coverage
constraints are jointly satisfiable; adding no-immediate-repeat (and
no-self-escalation) can destroy satisfiability, as the counterexample
shows. -/
theorem avail_coverage_satisfiable (inp : Input)
    (hnN : inp.normalEmployees.Nodup) (hnE : inp.escalationEmployees.Nodup)
    (hok : availOK inp) :
    ∃ vb, ∀ c ∈ availabilityCons inp ++ coverageCons inp,
      consSat vb (fun _ => 0) c := by
  refine ⟨chooseVb inp, ?_⟩
  intro c hc
  rw [List.mem_append] at hc
  rcases hc with hc | hc
  · simp only [availabilityCons, List.mem_append, List.mem_flatMap,
      List.mem_filterMap, Option.map_eq_some'] at hc
    rcases hc with ⟨e, he, t, ht, b, hb, heq⟩ | ⟨e, he, t, ht, b, hb, heq⟩
    · subst heq
      obtain ⟨⟨hsome, hone⟩, _⟩ := hok t ht
      obtain ⟨hmem, hforced, hoff⟩ :=
        chooseAt_spec inp.normalEmployees inp.normalEmployeeConstraints t
          hsome hone
      show sumB (chooseVb inp) [BVar.nrm e t] = btoi b
      cases b with
      | true =>
        have he2 := hforced e he hb
        simp [sumB, chooseVb, he2, btoi]
      | false =>
        have hne2 := hoff e he hb
        simp [sumB, chooseVb, btoi, hne2]
    · subst heq
      obtain ⟨_, ⟨hsome, hone⟩⟩ := hok t ht
      obtain ⟨hmem, hforced, hoff⟩ :=
        chooseAt_spec inp.escalationEmployees inp.escalationEmployeeConstraints
          t hsome hone
      show sumB (chooseVb inp) [BVar.esc e t] = btoi b
      cases b with
      | true =>
        have he2 := hforced e he hb
        simp [sumB, chooseVb, he2, btoi]
      | false =>
        have hne2 := hoff e he hb
        simp [sumB, chooseVb, btoi, hne2]
  · simp only [coverageCons, List.mem_flatMap, List.mem_cons,
      List.not_mem_nil, or_false] at hc
    obtain ⟨t, ht, heq | heq⟩ := hc <;> subst heq
    · obtain ⟨⟨hsome, hone⟩, _⟩ := hok t ht
      obtain ⟨hmem, _, _⟩ :=
        chooseAt_spec inp.normalEmployees inp.normalEmployeeConstraints t
          hsome hone
      show sumB (chooseVb inp)
        (inp.normalEmployees.map fun e => BVar.nrm e t) = 1
      rw [sumB_map]
      exact sum_btoi_eq_one _ _ hnN hmem
    · obtain ⟨_, ⟨hsome, hone⟩⟩ := hok t ht
      obtain ⟨hmem, _, _⟩ :=
        chooseAt_spec inp.escalationEmployees inp.escalationEmployeeConstraints
          t hsome hone
      show sumB (chooseVb inp)
        (inp.escalationEmployees.map fun e => BVar.esc e t) = 1
      rw [sumB_map]
      exact sum_btoi_eq_one _ _ hnE hmem

theorem avail_coverage_satisfiable_witness :
    ∃ vb, ∀ c ∈ availabilityCons notebookInput ++ coverageCons notebookInput,
      consSat vb (fun _ => 0) c :=
  avail_coverage_satisfiable notebookInput (by decide) (by decide) (by decide)

/-- Claim C8 counterexample: the notebook performs no input validation at
all.  For `conflictInput` — two distinct normal employees both FORCED_ON
at slot 0 — model construction happily emits both forced equalities: the
malformed input reaches constraint generation instead of being rejected
by a named validation failure. -/
theorem forced_on_conflict_reaches_generation :
    Cons.eqSum [BVar.nrm 0 0] 1 ∈ (buildModel conflictInput).conss ∧
    Cons.eqSum [BVar.nrm 1 0] 1 ∈ (buildModel conflictInput).conss := by
  constructor <;> decide

/-- Claim C8 amended: conflicting FORCED_ON inputs are not rejected
locally; their constraints are emitted and the resulting model is
unsatisfiable, so the failure surfaces only as solver infeasibility
(matching the notebook's own remark that such inputs yield no feasible
solution). -/
theorem forced_on_conflict_unsat (inp : Input) (e1 e2 t : Nat)
    (hne : e1 ≠ e2) (ht : t ∈ timeSlots inp) :
    (e1 ∈ inp.normalEmployees → e2 ∈ inp.normalEmployees →
      inp.normalEmployeeConstraints e1 t = some true →
      inp.normalEmployeeConstraints e2 t = some true →
      ¬∃ vb, hardSat inp vb) ∧
    (e1 ∈ inp.escalationEmployees → e2 ∈ inp.escalationEmployees →
      inp.escalationEmployeeConstraints e1 t = some true →
      inp.escalationEmployeeConstraints e2 t = some true →
      ¬∃ vb, hardSat inp vb) := by
  constructor
  · intro h1 h2 hc1 hc2
    rintro ⟨vb, h⟩
    have hb1 : vb (BVar.nrm e1 t) = true :=
      sumB_singleton_eq_one vb _ (h _ (availN_mem inp e1 t h1 ht true hc1))
    have hb2 : vb (BVar.nrm e2 t) = true :=
      sumB_singleton_eq_one vb _ (h _ (availN_mem inp e2 t h2 ht true hc2))
    have hcov : sumB vb (inp.normalEmployees.map fun e => BVar.nrm e t) = 1 :=
      h _ (coverageN_mem inp t ht)
    have htwo := two_mem_le_sum inp.normalEmployees
      (fun e => btoi (vb (BVar.nrm e t))) (fun e => btoi_nonneg _)
      e1 e2 h1 h2 hne
    rw [sumB_map] at hcov
    simp only [hb1, hb2, btoi, if_true] at htwo
    simp only [btoi] at hcov
    omega
  · intro h1 h2 hc1 hc2
    rintro ⟨vb, h⟩
    have hb1 : vb (BVar.esc e1 t) = true :=
      sumB_singleton_eq_one vb _ (h _ (availE_mem inp e1 t h1 ht true hc1))
    have hb2 : vb (BVar.esc e2 t) = true :=
      sumB_singleton_eq_one vb _ (h _ (availE_mem inp e2 t h2 ht true hc2))
    have hcov : sumB vb (inp.escalationEmployees.map fun e => BVar.esc e t) = 1 :=
      h _ (coverageE_mem inp t ht)
    have htwo := two_mem_le_sum inp.escalationEmployees
      (fun e => btoi (vb (BVar.esc e t))) (fun e => btoi_nonneg _)
      e1 e2 h1 h2 hne
    rw [sumB_map] at hcov
    simp only [hb1, hb2, btoi, if_true] at htwo
    simp only [btoi] at hcov
    omega

theorem forced_on_conflict_unsat_witness : ¬∃ vb, hardSat conflictInput vb :=
  (forced_on_conflict_unsat conflictInput 0 1 0 (by decide) (by decide)).1
    (by decide) (by decide) (by decide) (by decide)
